import Mathlib

/-!
# The computation graph of `cnn/cnn.cc`

A shallow embedding of `Hypergraph` (construction, `forward`, `backward`,
`PrintGraphviz`) and the properties of it that the specification states.

Conventions of the embedding.

* `std::vector` is `List`; an index is a `Nat` (node counts are taken to fit the
  `unsigned` and `int` counters of the source).
* An access the C++ leaves undefined (an index past the end of a vector, `back()` of an
  empty vector) ends the run with `Except.error`, carrying the kind of access; the source
  has no error reporting of its own.
* The matrix type, its arithmetic and the virtual methods of an edge are declared
  outside `cnn.cc`; they are parameters (`MatrixOps`, the function fields of `Edge`).
* A `const Matrix*` is the matrix it points to, a null pointer is `none`.
* Each traversal also records, in order, the virtual `forward`/`backward` calls it makes.
* The stream `cerr` is the text written to it so far.
-/

namespace cnn

/-- The operations of the dense matrix type `Matrix` (and its scalar type `real`) that
`cnn.cc` uses. -/
structure MatrixOps (R M : Type) where
  /-- The literal `1` of type `real`. -/
  one : R
  /-- The matrix built by `Matrix m(1,1); m(0,0) = s;`. -/
  scalar : R → M
  /-- The value of `Zero(Dim(r, c))`. -/
  Zero : Nat → Nat → M
  /-- The value of `m.rows()`. -/
  rows : M → Nat
  /-- The value of `m.cols()`. -/
  cols : M → Nat
  /-- The value of `a` after `a += b`. -/
  add : M → M → M
  /-- A default-constructed `Matrix`. -/
  dflt : M

/-- The virtual interface of `Edge`: what a concrete operation supplies. -/
structure EdgeMethods (M : Type) where
  /-- The method `arity()`. -/
  arity : Nat
  /-- The method `has_parameters()`. -/
  has_parameters : Bool
  /-- The method `forward(xs)`. -/
  forward : List (Option M) → M
  /-- The method `backward(xs, fx, dEdf, i)`. -/
  backward : List (Option M) → M → M → Nat → M
  /-- The method `as_string(var_names)`. -/
  as_string : List String → String

/-- An `Edge`: the index of the node it produces, the indices of the nodes it reads, and
its operation. -/
structure Edge (M : Type) extends EdgeMethods M where
  head_node : Nat
  tail : List Nat

/-- A `Node`: its producing edge, its name, its value and its accumulated gradient. -/
structure Node (M : Type) where
  in_edge : Nat
  name : String
  f : M
  dEdf : M

/-- The graph: `nodes` and `edges`, both in creation order. -/
structure Hypergraph (M : Type) where
  nodes : List (Node M)
  edges : List (Edge M)

/-- Accesses that the source leaves undefined. -/
inductive Fault where
  /-- An access `nodes[i]` with `i` past the end. -/
  | nodeIndex
  /-- An access `edges[i]` with `i` past the end. -/
  | edgeIndex
  /-- An access `xs[ti]` with `ti` past the end. -/
  | argIndex
  /-- An access `needs_derivative[i]` with `i` past the end. -/
  | flagIndex
  /-- A call `nodes.back()` on an empty vector. -/
  | backOfEmpty
  deriving DecidableEq, Repr

/-- The result of running a piece of the source. -/
abbrev Outcome (α : Type) : Type := Except Fault α

/-- A virtual call made by a traversal. -/
inductive Call where
  /-- The call `edges[e]->forward(xs)`. -/
  | forward (e : Nat)
  /-- The call `edges[e]->backward(xs, f, dEdf, ti)`, made to add into node `tail[ti]`. -/
  | backward (e : Nat) (ti : Nat)
  deriving DecidableEq, Repr

/-- A graph during a traversal, with the virtual calls made so far (oldest first). -/
structure Trav (M : Type) where
  g : Hypergraph M
  calls : List Call

/-- A counted loop: `body` is run for each index of the list in turn; a fault stops it. -/
def loop {σ : Type} (body : σ → Nat → Outcome σ) : List Nat → σ → Outcome σ
  | [], s => Except.ok s
  | i :: rest, s =>
    match body s i with
    | Except.ok s' => loop body rest s'
    | Except.error e => Except.error e

/-- The constructor `Node(in_edge_index, name)`: value and gradient are
default-constructed. -/
def Node.new {R M : Type} (ops : MatrixOps R M) (in_edge_index : Nat) (name : String) :
    Node M :=
  { in_edge := in_edge_index, name := name, f := ops.dflt, dEdf := ops.dflt }

/-- The virtual methods of the edge classes `InputEdge`, `ParameterEdge` and `LookupEdge`,
which are declared in `cnn/edges.h` and not part of the sources: for each constructor
argument, what the edge computes. `P` stands for `const Parameters*`, `L` for
`const LookupParameters*`. -/
structure EdgeClasses (M P L : Type) where
  InputEdge : M → EdgeMethods M
  ParameterEdge : P → EdgeMethods M
  LookupEdge : L → EdgeMethods M

/-- Modelled from the spec: a freshly constructed `InputEdge`, `ParameterEdge` or
`LookupEdge` (constructors in `cnn/edges.h`, not part of the sources). The spec calls them
"dedicated zero-arity edges" that inject a value, so the edge reads no node: `tail` is
empty. Its `head_node` is assigned by the caller right after construction. -/
def Edge.leaf {M : Type} (m : EdgeMethods M) : Edge M :=
  { m with head_node := 0, tail := [] }

/-- The common body of the four construction functions: append a node whose producer is
the next edge index, append the edge, set its head to the new node, return the index. -/
def Hypergraph.append {R M : Type} (ops : MatrixOps R M) (g : Hypergraph M) (e : Edge M)
    (name : String) : Nat × Hypergraph M :=
  let new_node_index := g.nodes.length
  let nodes := g.nodes ++ [Node.new ops g.edges.length name]
  let edges := g.edges ++ [{ e with head_node := new_node_index }]
  (new_node_index, { nodes := nodes, edges := edges })

/-- The function `Hypergraph::add_input` (lines 23-30). -/
def Hypergraph.add_input {R M P L : Type} (ops : MatrixOps R M) (cls : EdgeClasses M P L)
    (g : Hypergraph M) (m : M) (name : String) : Nat × Hypergraph M :=
  g.append ops (Edge.leaf (cls.InputEdge m)) name

/-- The function `Hypergraph::add_scalar_input` (lines 17-21). -/
def Hypergraph.add_scalar_input {R M P L : Type} (ops : MatrixOps R M)
    (cls : EdgeClasses M P L) (g : Hypergraph M) (s : R) (name : String) :
    Nat × Hypergraph M :=
  g.add_input ops cls (ops.scalar s) name

/-- The function `Hypergraph::add_parameter(const Parameters*, name)` (lines 32-38). -/
def Hypergraph.add_parameter {R M P L : Type} (ops : MatrixOps R M)
    (cls : EdgeClasses M P L) (g : Hypergraph M) (p : P) (name : String) :
    Nat × Hypergraph M :=
  g.append ops (Edge.leaf (cls.ParameterEdge p)) name

/-- The function `Hypergraph::add_parameter(const LookupParameters*, name)`
(lines 40-46). -/
def Hypergraph.add_lookup_parameter {R M P L : Type} (ops : MatrixOps R M)
    (cls : EdgeClasses M P L) (g : Hypergraph M) (p : L) (name : String) :
    Nat × Hypergraph M :=
  g.append ops (Edge.leaf (cls.LookupEdge p)) name

/-- The tail-gathering loop shared by `forward` and `backward`:
`for (t : tail) { xs[ti] = &nodes[t]->f; ++ti; }` -/
def gatherLoop {M : Type} (nodes : List (Node M)) :
    List Nat → Nat → List (Option M) → Outcome (List (Option M))
  | [], _, xs => Except.ok xs
  | t :: rest, ti, xs =>
    match nodes[t]? with
    | none => Except.error Fault.nodeIndex
    | some nd =>
      if ti < xs.length then gatherLoop nodes rest (ti + 1) (xs.set ti (some nd.f))
      else Except.error Fault.argIndex

/-- The declaration `vector<const Matrix*> xs(in_edge.arity());` followed by the
gathering loop. -/
def gather {M : Type} (nodes : List (Node M)) (e : Edge M) : Outcome (List (Option M)) :=
  gatherLoop nodes e.tail 0 (List.replicate e.arity none)

/-- The body of the loop of `forward` at node `i`. -/
def forwardStep {R M : Type} (ops : MatrixOps R M) (s : Trav M) (i : Nat) :
    Outcome (Trav M) :=
  match s.g.nodes[i]? with
  | none => Except.error Fault.nodeIndex
  | some node =>
    match s.g.edges[node.in_edge]? with
    | none => Except.error Fault.edgeIndex
    | some in_edge =>
      match gather s.g.nodes in_edge with
      | Except.error e => Except.error e
      | Except.ok xs =>
        let fv := in_edge.forward xs
        Except.ok
          { g := { s.g with
                   nodes := s.g.nodes.set i
                     { node with f := fv, dEdf := ops.Zero (ops.rows fv) (ops.cols fv) } },
            calls := s.calls ++ [Call.forward node.in_edge] }

/-- The function `Hypergraph::forward` (lines 48-61): the value returned, the graph
afterwards and the calls made. -/
def forward {R M : Type} (ops : MatrixOps R M) (g : Hypergraph M) : Outcome (M × Trav M) :=
  match loop (forwardStep ops) (List.range g.nodes.length) { g := g, calls := [] } with
  | Except.error e => Except.error e
  | Except.ok s =>
    match s.g.nodes.getLast? with
    | none => Except.error Fault.backOfEmpty
    | some last => Except.ok (last.f, s)

/-- The inner loop of the liveness pass: `is_variable |= needs_derivative[tail_node]`. -/
def orTails (needs_derivative : List Bool) : List Nat → Bool → Outcome Bool
  | [], is_variable => Except.ok is_variable
  | t :: rest, is_variable =>
    match needs_derivative[t]? with
    | none => Except.error Fault.flagIndex
    | some b => orTails needs_derivative rest (is_variable || b)

/-- The body of the liveness pass at node `ni`. -/
def livenessStep {M : Type} (g : Hypergraph M) (needs_derivative : List Bool) (ni : Nat) :
    Outcome (List Bool) :=
  match g.nodes[ni]? with
  | none => Except.error Fault.nodeIndex
  | some node =>
    match g.edges[node.in_edge]? with
    | none => Except.error Fault.edgeIndex
    | some in_edge =>
      match orTails needs_derivative in_edge.tail in_edge.has_parameters with
      | Except.error e => Except.error e
      | Except.ok is_variable => Except.ok (needs_derivative.set ni is_variable)

/-- The liveness pass of `backward` (lines 65-73): the final `needs_derivative`. -/
def liveness {M : Type} (g : Hypergraph M) : Outcome (List Bool) :=
  loop (livenessStep g) (List.range g.nodes.length) (List.replicate g.nodes.length false)

/-- The seeding `nodes.back()->dEdf = Matrix(1,1); nodes.back()->dEdf(0,0) = 1;` -/
def seed {R M : Type} (ops : MatrixOps R M) (g : Hypergraph M) : Outcome (Hypergraph M) :=
  match g.nodes.getLast? with
  | none => Except.error Fault.backOfEmpty
  | some last =>
    Except.ok { g with
      nodes := g.nodes.set (g.nodes.length - 1) { last with dEdf := ops.scalar ops.one } }

/-- The inner loop of the reverse sweep (lines 89-94) for node `i` with producing edge
`in_edge`, from tail position `ti` on; `tails` is `in_edge.tail` from that position.
With `filter = false` the outcome of the test on `needs_derivative` is ignored: every tail
receives its contribution. -/
def backwardTails {R M : Type} (ops : MatrixOps R M) (filter : Bool)
    (needs_derivative : List Bool) (i : Nat) (in_edge : Edge M) (xs : List (Option M)) :
    List Nat → Nat → Trav M → Outcome (Trav M)
  | [], _, s => Except.ok s
  | t :: rest, ti, s =>
    match needs_derivative[t]? with
    | none => Except.error Fault.flagIndex
    | some b =>
      if b || !filter then
        match s.g.nodes[t]?, s.g.nodes[i]? with
        | some tail_node, some node =>
          backwardTails ops filter needs_derivative i in_edge xs rest (ti + 1)
            { g := { s.g with
                     nodes := s.g.nodes.set t
                       { tail_node with
                         dEdf := ops.add tail_node.dEdf
                           (in_edge.backward xs node.f node.dEdf ti) } },
              calls := s.calls ++ [Call.backward node.in_edge ti] }
        | _, _ => Except.error Fault.nodeIndex
      else backwardTails ops filter needs_derivative i in_edge xs rest (ti + 1) s

/-- The body of the reverse sweep at node `i` (lines 81-94). -/
def backwardStep {R M : Type} (ops : MatrixOps R M) (filter : Bool)
    (needs_derivative : List Bool) (s : Trav M) (i : Nat) : Outcome (Trav M) :=
  match s.g.nodes[i]? with
  | none => Except.error Fault.nodeIndex
  | some node =>
    match s.g.edges[node.in_edge]? with
    | none => Except.error Fault.edgeIndex
    | some in_edge =>
      match gather s.g.nodes in_edge with
      | Except.error e => Except.error e
      | Except.ok xs =>
        backwardTails ops filter needs_derivative i in_edge xs in_edge.tail 0 s

/-- The reverse sweep of `backward` with the liveness test switchable: liveness pass,
seeding, then the nodes from last to first. -/
def backwardWith {R M : Type} (ops : MatrixOps R M) (filter : Bool) (g : Hypergraph M) :
    Outcome (Trav M) :=
  match liveness g with
  | Except.error e => Except.error e
  | Except.ok needs_derivative =>
    match seed ops g with
    | Except.error e => Except.error e
    | Except.ok g1 =>
      loop (backwardStep ops filter needs_derivative) (List.range g.nodes.length).reverse
        { g := g1, calls := [] }

/-- The function `Hypergraph::backward` (lines 63-96): the graph afterwards and the calls
made. -/
def backward {R M : Type} (ops : MatrixOps R M) (g : Hypergraph M) : Outcome (Trav M) :=
  backwardWith ops true g

/-- A call of `forward()` followed by a call of `backward()` on its result. -/
def forwardBackward {R M : Type} (ops : MatrixOps R M) (g : Hypergraph M) :
    Outcome (Trav M) :=
  match forward ops g with
  | Except.error e => Except.error e
  | Except.ok (_, s) => backward ops s.g

/-! ## Well-formed graphs -/

/-- One producing edge per node: the edge count equals the node count. -/
def EdgePerNode {M : Type} (g : Hypergraph M) : Prop :=
  g.edges.length = g.nodes.length

/-- Node `i` names edge `i` as its producer. -/
def OwnInEdge {M : Type} (g : Hypergraph M) : Prop :=
  ∀ p ∈ g.nodes.enum, p.2.in_edge = p.1

/-- Edge `i` names node `i` as its head. -/
def OwnHead {M : Type} (g : Hypergraph M) : Prop :=
  ∀ p ∈ g.edges.enum, p.2.head_node = p.1

/-- Every tail index of edge `i` is strictly less than `i`. -/
def TailsPrecede {M : Type} (g : Hypergraph M) : Prop :=
  ∀ p ∈ g.edges.enum, ∀ t ∈ p.2.tail, t < p.1

/-- The arity of every edge is the number of its tails. -/
def ArityIsTails {M : Type} (g : Hypergraph M) : Prop :=
  ∀ e ∈ g.edges, e.arity = e.tail.length

/-- The structural invariant that construction maintains. -/
def Structural {M : Type} (g : Hypergraph M) : Prop :=
  EdgePerNode g ∧ OwnInEdge g ∧ OwnHead g ∧ TailsPrecede g

/-- A well-formed graph, as the traversals need it: edge count = node count, node `i` is
produced by edge `i`, the tails of edge `i` are below `i`, arity = number of tails. -/
def WellFormed {M : Type} (g : Hypergraph M) : Prop :=
  EdgePerNode g ∧ OwnInEdge g ∧ TailsPrecede g ∧ ArityIsTails g

instance {M : Type} (g : Hypergraph M) : Decidable (EdgePerNode g) := by
  unfold EdgePerNode; infer_instance

instance {M : Type} (g : Hypergraph M) : Decidable (OwnInEdge g) := by
  unfold OwnInEdge; infer_instance

instance {M : Type} (g : Hypergraph M) : Decidable (OwnHead g) := by
  unfold OwnHead; infer_instance

instance {M : Type} (g : Hypergraph M) : Decidable (TailsPrecede g) := by
  unfold TailsPrecede; infer_instance

instance {M : Type} (g : Hypergraph M) : Decidable (ArityIsTails g) := by
  unfold ArityIsTails; infer_instance

instance {M : Type} (g : Hypergraph M) : Decidable (Structural g) := by
  unfold Structural; infer_instance

instance {M : Type} (g : Hypergraph M) : Decidable (WellFormed g) := by
  unfold WellFormed; infer_instance

/-- The values of the tails of `e`, in tail order, as `gather` collects them. -/
def tailValues {M : Type} (nodes : List (Node M)) (e : Edge M) : List (Option M) :=
  e.tail.map (fun t => (nodes[t]?).map Node.f)

/-! ## Loop invariants -/

/-- The state of `forward` on `g` when the nodes below `k` have been evaluated. -/
structure ForwardInv {R M : Type} (ops : MatrixOps R M) (g : Hypergraph M) (k : Nat)
    (s : Trav M) : Prop where
  edges : s.g.edges = g.edges
  len : s.g.nodes.length = g.nodes.length
  frame : ∀ i nd₀, g.nodes[i]? = some nd₀ →
    ∃ nd, s.g.nodes[i]? = some nd ∧ nd.in_edge = nd₀.in_edge ∧ nd.name = nd₀.name ∧
      (k ≤ i → nd = nd₀)
  done : ∀ i nd e, i < k → s.g.nodes[i]? = some nd → g.edges[i]? = some e →
    nd.f = e.forward (tailValues s.g.nodes e) ∧
      nd.dEdf = ops.Zero (ops.rows nd.f) (ops.cols nd.f)
  calls : s.calls = (List.range k).map Call.forward

/-- The state of the liveness pass on `g` when the nodes below `k` have been marked. -/
structure LivenessInv {M : Type} (g : Hypergraph M) (k : Nat) (flags : List Bool) :
    Prop where
  len : flags.length = g.nodes.length
  done : ∀ i e, i < k → g.edges[i]? = some e →
    flags[i]? = some (e.has_parameters || e.tail.any (fun t => (flags[t]?).getD false))

/-! ## Ancestry -/

/-- Node `a` is a tail of the edge that produces node `b`: one tail-to-head link. -/
def Feeds {M : Type} (g : Hypergraph M) (a b : Nat) : Prop :=
  ∃ nd e, g.nodes[b]? = some nd ∧ g.edges[nd.in_edge]? = some e ∧ a ∈ e.tail

/-- Node `a` reaches node `b` by following tail-to-head links zero or more times. -/
def Reaches {M : Type} (g : Hypergraph M) (a b : Nat) : Prop :=
  Relation.ReflTransGen (Feeds g) a b

/-- Node `a` is produced by an edge whose `has_parameters()` is true. -/
def OwnsParameters {M : Type} (g : Hypergraph M) (a : Nat) : Prop :=
  ∃ nd e, g.nodes[a]? = some nd ∧ g.edges[nd.in_edge]? = some e ∧ e.has_parameters = true

/-- Two graphs with the same producer of every node and the same tails and
`has_parameters()` of every edge; values, gradients, names and formulas may differ. -/
def SameShape {M : Type} (g g' : Hypergraph M) : Prop :=
  g'.nodes.map Node.in_edge = g.nodes.map Node.in_edge ∧
    g'.edges.map (fun e => (e.tail, e.has_parameters)) =
      g.edges.map (fun e => (e.tail, e.has_parameters))

/-! ## Gradient contributions -/

/-- The contributions that one run of the inner loop of `backward` owes node `j`: for the
tail positions `ti, ti + 1, ...` holding the tails `ts`, the value of
`e.backward(xs, fi, di, position)` at every position whose tail is `j`. -/
def posContribs {M : Type} (e : Edge M) (xs : List (Option M)) (fi di : M) (j : Nat)
    (ts : List Nat) (ti : Nat) : List M :=
  ((ts.enumFrom ti).filter (fun p => p.2 = j)).map (fun p => e.backward xs fi di p.1)

/-- The contributions of node `i` to node `j`, read off the graph `g`: for every tail
position `k` of the producing edge of `i` whose tail is `j`, that edge's
`backward(tail values, f[i], dEdf[i], k)`, in increasing `k`. -/
def edgeContributions {M : Type} (g : Hypergraph M) (j i : Nat) : List M :=
  match g.nodes[i]? with
  | none => []
  | some nd =>
    match g.edges[nd.in_edge]? with
    | none => []
    | some e => posContribs e (tailValues g.nodes e) nd.f nd.dEdf j e.tail 0

/-- The contributions to node `j` of the nodes `k, ..., n - 1`, highest node first. -/
def contributionsFrom {M : Type} (g : Hypergraph M) (j k : Nat) : List M :=
  ((List.range' k (g.nodes.length - k)).reverse.map (edgeContributions g j)).flatten

/-- All contributions to node `j`, read off the graph `g`: one for every pair (node `i`,
tail position `k`) whose tail is `j`, highest node first. -/
def contributions {M : Type} (g : Hypergraph M) (j : Nat) : List M :=
  ((List.range g.nodes.length).reverse.map (edgeContributions g j)).flatten

/-- Whether the reverse sweep adds into node `j`: its flag is set, or the test is off. -/
def receives (filter : Bool) (flags : List Bool) (j : Nat) : Bool :=
  (flags[j]?).getD false || !filter

/-- The `backward` calls that the reverse sweep makes at node `i`: one for every tail
position whose node the sweep adds into, in increasing position. -/
def edgeCalls {M : Type} (filter : Bool) (flags : List Bool) (g : Hypergraph M) (i : Nat) :
    List Call :=
  match g.nodes[i]? with
  | none => []
  | some nd =>
    match g.edges[nd.in_edge]? with
    | none => []
    | some e =>
      ((e.tail.enumFrom 0).filter (fun p => receives filter flags p.2)).map
        (fun p => Call.backward nd.in_edge p.1)

/-- The `backward` calls of the reverse sweep at the nodes `k, ..., n - 1`, highest node
first. -/
def sweepCallsFrom {M : Type} (filter : Bool) (flags : List Bool) (g : Hypergraph M)
    (k : Nat) : List Call :=
  ((List.range' k (g.nodes.length - k)).reverse.map (edgeCalls filter flags g)).flatten

/-- All `backward` calls of the reverse sweep, highest node first. -/
def sweepCalls {M : Type} (filter : Bool) (flags : List Bool) (g : Hypergraph M) :
    List Call :=
  ((List.range g.nodes.length).reverse.map (edgeCalls filter flags g)).flatten

/-- The state of the reverse sweep, started on the seeded graph `g₁`, when the nodes from
`k` up have been processed: each node is as seeded but for its gradient, which has gained
the contributions of those nodes. -/
structure BackwardInv {R M : Type} (ops : MatrixOps R M) (filter : Bool)
    (flags : List Bool) (g₁ : Hypergraph M) (k : Nat) (s : Trav M) : Prop where
  edges : s.g.edges = g₁.edges
  len : s.g.nodes.length = g₁.nodes.length
  nodes : ∀ (j : Nat) (nd₁ : Node M), g₁.nodes[j]? = some nd₁ →
    s.g.nodes[j]? = some
      { nd₁ with
        dEdf := (if receives filter flags j then contributionsFrom s.g j k else []).foldl
          ops.add nd₁.dEdf }
  calls : s.calls = sweepCallsFrom filter flags g₁ k

/-! ## Construction sequences -/

/-- The graph with no nodes and no edges. -/
def Hypergraph.empty {M : Type} : Hypergraph M :=
  { nodes := [], edges := [] }

/-- A call of one of the four construction functions, with its arguments. -/
inductive Construct (R M P L : Type) where
  | add_input (m : M) (name : String)
  | add_scalar_input (s : R) (name : String)
  | add_parameter (p : P) (name : String)
  | add_lookup_parameter (p : L) (name : String)

/-- Makes the call on `g`: the index returned and the graph afterwards. -/
def Construct.run {R M P L : Type} (ops : MatrixOps R M) (cls : EdgeClasses M P L)
    (g : Hypergraph M) : Construct R M P L → Nat × Hypergraph M
  | Construct.add_input m name => g.add_input ops cls m name
  | Construct.add_scalar_input s name => g.add_scalar_input ops cls s name
  | Construct.add_parameter p name => g.add_parameter ops cls p name
  | Construct.add_lookup_parameter p name => g.add_lookup_parameter ops cls p name

/-- Makes a sequence of construction calls on `g`, first call first: the indices returned,
in call order, and the graph afterwards. -/
def build {R M P L : Type} (ops : MatrixOps R M) (cls : EdgeClasses M P L) :
    List (Construct R M P L) → Hypergraph M → List Nat × Hypergraph M
  | [], g => ([], g)
  | c :: rest, g =>
    let r := c.run ops cls g
    let rs := build ops cls rest r.2
    (r.1 :: rs.1, rs.2)

/-- The part of `backward` that precedes the processing of node `i`: the liveness pass,
the seeding, and the reverse sweep over the nodes above `i`, from the last down to
`i + 1`. Its result is the state at the moment node `i` is processed. -/
def backwardBefore {R M : Type} (ops : MatrixOps R M) (filter : Bool) (g : Hypergraph M)
    (i : Nat) : Outcome (Trav M) :=
  match liveness g with
  | Except.error e => Except.error e
  | Except.ok needs_derivative =>
    match seed ops g with
    | Except.error e => Except.error e
    | Except.ok g1 =>
      loop (backwardStep ops filter needs_derivative)
        (List.range' (i + 1) (g.nodes.length - (i + 1))).reverse { g := g1, calls := [] }

/-! ## Diagnostics -/

/-- Modelled from the spec: the method `Node::variable_name()` is declared in `cnn/cnn.h`,
which is not part of the sources. The spec has each node "labeled with its variable name",
the name given when the node was created. -/
def Node.variable_name {M : Type} (nd : Node M) : String :=
  nd.name

/-- The inner loop of the label loop of `PrintGraphviz` (lines 104-105):
`var_names.push_back(nodes[tail_node]->variable_name())` for every tail. -/
def namesLoop {M : Type} (nodes : List (Node M)) : List Nat → List String →
    Outcome (List String)
  | [], var_names => Except.ok var_names
  | tail_node :: rest, var_names =>
    match nodes[tail_node]? with
    | none => Except.error Fault.nodeIndex
    | some nd => namesLoop nodes rest (var_names ++ [nd.variable_name])

/-- The body of the label loop of `PrintGraphviz` (lines 102-108) at the node of index
`nc`; the state is the text written to `cerr` so far. -/
def labelStep {M : Type} (g : Hypergraph M) (cerr : String) (nc : Nat) : Outcome String :=
  match g.nodes[nc]? with
  | none => Except.error Fault.nodeIndex
  | some node =>
    match g.edges[node.in_edge]? with
    | none => Except.error Fault.edgeIndex
    | some in_edge =>
      match namesLoop g.nodes in_edge.tail [] with
      | Except.error e => Except.error e
      | Except.ok var_names =>
        Except.ok (cerr ++ "  N" ++ toString nc ++ " [label=\"" ++ node.variable_name ++ " = "
          ++ in_edge.as_string var_names ++ "\"];\n")

/-- The inner arrow loop of `PrintGraphviz` (lines 111-112) for one edge. -/
def arrowTails (head_node : Nat) : List Nat → String → String
  | [], cerr => cerr
  | ni :: rest, cerr =>
    arrowTails head_node rest
      (cerr ++ "  N" ++ toString ni ++ " -> N" ++ toString head_node ++ ";\n")

/-- The arrow loop of `PrintGraphviz` (lines 110-112) over the edges. -/
def arrowEdges {M : Type} : List (Edge M) → String → String
  | [], cerr => cerr
  | edge :: rest, cerr => arrowEdges rest (arrowTails edge.head_node edge.tail cerr)

/-- The function `Hypergraph::PrintGraphviz` (lines 98-114), started with `cerr` holding
the text written so far: the graph afterwards and the text in `cerr` afterwards. -/
def PrintGraphviz {M : Type} (g : Hypergraph M) (cerr : String) :
    Outcome (Hypergraph M × String) :=
  match loop (labelStep g) (List.range g.nodes.length)
      (cerr ++ "digraph G \x7b\n  rankdir=LR;\n  nodesep=.05;\n") with
  | Except.error e => Except.error e
  | Except.ok labelled => Except.ok (g, arrowEdges g.edges labelled ++ "\x7d\n")

/-- The text of a list of lines, one after the other. -/
def concatLines (lines : List String) : String :=
  lines.foldr (fun line text => line ++ text) ""

/-- The label line of node `i`: `N<i> [label="<name> = <rendering of its edge>"];`, the
edge rendered by `as_string` on the names of its tails in tail order. -/
def labelLine {M : Type} (g : Hypergraph M) (i : Nat) : String :=
  match g.nodes[i]? with
  | none => ""
  | some nd =>
    match g.edges[nd.in_edge]? with
    | none => ""
    | some e =>
      "  N" ++ toString i ++ " [label=\"" ++ nd.variable_name ++ " = " ++
        e.as_string (e.tail.map (fun t => ((g.nodes[t]?).map Node.variable_name).getD ""))
        ++ "\"];\n"

/-- The arrow line `N<t> -> N<h>;`. -/
def arrowLine (t h : Nat) : String :=
  "  N" ++ toString t ++ " -> N" ++ toString h ++ ";\n"

/-- The label lines of a graph: one per node, in index order. -/
def labelLines {M : Type} (g : Hypergraph M) : List String :=
  (List.range g.nodes.length).map (labelLine g)

/-- The arrow lines of a graph: one per pair (edge, tail position), in edge order then
tail order, from the tail to the head of the edge. -/
def arrowLines {M : Type} (g : Hypergraph M) : List String :=
  (g.edges.map (fun e => e.tail.map (fun t => arrowLine t e.head_node))).flatten

/-- The rendering the specification describes: the fixed header, the label lines, the
arrow lines, the closing brace. -/
def rendering {M : Type} (g : Hypergraph M) : String :=
  "digraph G \x7b\n  rankdir=LR;\n  nodesep=.05;\n" ++ concatLines (labelLines g) ++
    concatLines (arrowLines g) ++ "\x7d\n"

end cnn

namespace cnn.Example

/-- A dense matrix over exact rational arithmetic: shape and entries. -/
structure QMat where
  rows : Nat
  cols : Nat
  data : List ℚ
  deriving DecidableEq

/-- Entrywise combination; the shape is that of the left operand. -/
def QMat.zipWith (op : ℚ → ℚ → ℚ) (a b : QMat) : QMat :=
  { rows := a.rows, cols := a.cols, data := List.zipWith op a.data b.data }

/-- Multiplication of every entry by `c`. -/
def QMat.scale (c : ℚ) (a : QMat) : QMat :=
  { rows := a.rows, cols := a.cols, data := a.data.map (fun x => c * x) }

/-- The matrix operations over `QMat`. -/
def qops : MatrixOps ℚ QMat where
  one := 1
  scalar := fun s => { rows := 1, cols := 1, data := [s] }
  Zero := fun r c => { rows := r, cols := c, data := List.replicate (r * c) 0 }
  rows := QMat.rows
  cols := QMat.cols
  add := QMat.zipWith (fun x y => x + y)
  dflt := { rows := 0, cols := 0, data := [] }

/-- The first argument of an edge, the empty matrix when it is missing. -/
def arg0 (xs : List (Option QMat)) : QMat :=
  match xs with
  | some x :: _ => x
  | _ => qops.dflt

/-- Node 0 of the example: the input `x = 3`, no tails, no parameters. -/
def inputX : Edge QMat where
  arity := 0
  has_parameters := false
  forward := fun _ => qops.scalar 3
  backward := fun _ _ dEdf _ => dEdf
  as_string := fun _ => "x"
  head_node := 0
  tail := []

/-- Node 1 of the example: the entrywise square of node 0; its derivative is `2 x`. -/
def square : Edge QMat where
  arity := 1
  has_parameters := false
  forward := fun xs => QMat.zipWith (fun x y => x * y) (arg0 xs) (arg0 xs)
  backward := fun xs _ dEdf _ => QMat.zipWith (fun d x => d * (2 * x)) dEdf (arg0 xs)
  as_string := fun _ => "square"
  head_node := 1
  tail := [0]

/-- Node 2 of the example: node 1 scaled by the parameter `p = 2`, which the edge owns. -/
def scaleByP : Edge QMat where
  arity := 1
  has_parameters := true
  forward := fun xs => QMat.scale 2 (arg0 xs)
  backward := fun _ _ dEdf _ => QMat.scale 2 dEdf
  as_string := fun _ => "p * x"
  head_node := 2
  tail := [1]

/-- The three-node graph of the example scenario, before any traversal. -/
def graph : Hypergraph QMat where
  nodes := [Node.new qops 0 "x", Node.new qops 1 "sq", Node.new qops 2 "y"]
  edges := [inputX, square, scaleByP]

/-- The example graph as `forward()` leaves it: values 3, 9 and 18, gradients zero. -/
def evaluated : Hypergraph QMat where
  nodes :=
    [{ in_edge := 0, name := "x", f := qops.scalar 3, dEdf := qops.Zero 1 1 },
     { in_edge := 1, name := "sq", f := qops.scalar 9, dEdf := qops.Zero 1 1 },
     { in_edge := 2, name := "y", f := qops.scalar 18, dEdf := qops.Zero 1 1 }]
  edges := [inputX, square, scaleByP]

/-- The example graph as `backward()` leaves it after `forward()`: only the seed is set. -/
def differentiated : Hypergraph QMat where
  nodes :=
    [{ in_edge := 0, name := "x", f := qops.scalar 3, dEdf := qops.Zero 1 1 },
     { in_edge := 1, name := "sq", f := qops.scalar 9, dEdf := qops.Zero 1 1 },
     { in_edge := 2, name := "y", f := qops.scalar 18, dEdf := qops.scalar 1 }]
  edges := [inputX, square, scaleByP]

/-- A parameter `w = 3`: no tails, owns a parameter. -/
def paramW : Edge QMat where
  arity := 0
  has_parameters := true
  forward := fun _ => qops.scalar 3
  backward := fun _ _ dEdf _ => dEdf
  as_string := fun _ => "w"
  head_node := 0
  tail := []

/-- The sum of three arguments, reading node 0 twice and node 1 once. -/
def addThree : Edge QMat where
  arity := 3
  has_parameters := false
  forward := fun xs =>
    xs.foldl (fun acc x =>
      match x with
      | some m => qops.add acc m
      | none => acc) (qops.Zero 1 1)
  backward := fun _ _ dEdf _ => dEdf
  as_string := fun _ => "sum"
  head_node := 2
  tail := [0, 1, 0]

/-- A graph in which the live node 0 is read by two edges, by one of them twice:
`w`, `w * w`, `w + w * w + w`. -/
def diamond : Hypergraph QMat where
  nodes := [Node.new qops 0 "w", Node.new qops 1 "sq", Node.new qops 2 "y"]
  edges := [paramW, square, addThree]

/-- A graph with an edge and no node. -/
def nodeless : Hypergraph QMat where
  nodes := []
  edges := [inputX]

/-- Edge classes for construction over `QMat`: inputs and parameters hold their matrix,
a lookup holds the scalar it selects. -/
def qclasses : EdgeClasses QMat QMat ℚ where
  InputEdge := fun m =>
    { arity := 0, has_parameters := false, forward := fun _ => m,
      backward := fun _ _ dEdf _ => dEdf, as_string := fun _ => "input" }
  ParameterEdge := fun p =>
    { arity := 0, has_parameters := true, forward := fun _ => p,
      backward := fun _ _ dEdf _ => dEdf, as_string := fun _ => "parameter" }
  LookupEdge := fun q =>
    { arity := 0, has_parameters := true, forward := fun _ => qops.scalar q,
      backward := fun _ _ dEdf _ => dEdf, as_string := fun _ => "lookup" }

/-- A parameter `w = 3` (node 0) read by the one-tail edge `square` (node 1). -/
def pair : Hypergraph QMat where
  nodes := [Node.new qops 0 "w", Node.new qops 1 "sq"]
  edges := [paramW, square]

/-- The graph `pair` after `forward()` and one `backward()`. -/
def pairOnce : Hypergraph QMat where
  nodes :=
    [{ in_edge := 0, name := "w", f := qops.scalar 3, dEdf := qops.scalar 6 },
     { in_edge := 1, name := "sq", f := qops.scalar 9, dEdf := qops.scalar 1 }]
  edges := [paramW, square]

/-- The graph `pair` after `forward()` and two `backward()`. -/
def pairTwice : Hypergraph QMat where
  nodes :=
    [{ in_edge := 0, name := "w", f := qops.scalar 3, dEdf := qops.scalar 12 },
     { in_edge := 1, name := "sq", f := qops.scalar 9, dEdf := qops.scalar 1 }]
  edges := [paramW, square]

end cnn.Example

/-! # Theorems -/

namespace cnn

/-! ## Loops -/

theorem loop_append {σ : Type} (body : σ → Nat → Outcome σ) (l₁ l₂ : List Nat) (s : σ) :
    loop body (l₁ ++ l₂) s =
      match loop body l₁ s with
      | Except.ok s' => loop body l₂ s'
      | Except.error e => Except.error e := by
  induction l₁ generalizing s with
  | nil => simp [loop]
  | cons i rest ih =>
    simp only [List.cons_append, loop]
    cases body s i with
    | error e => rfl
    | ok s' => exact ih s'

/-- An ascending counted loop establishes `Inv n` from `Inv 0` when each pass takes
`Inv k` to `Inv (k + 1)` without fault. -/
theorem loop_range {σ : Type} (body : σ → Nat → Outcome σ) (Inv : Nat → σ → Prop) (n : Nat)
    (s₀ : σ) (h₀ : Inv 0 s₀)
    (hstep : ∀ k s, k < n → Inv k s → ∃ s', body s k = Except.ok s' ∧ Inv (k + 1) s') :
    ∃ s', loop body (List.range n) s₀ = Except.ok s' ∧ Inv n s' := by
  induction n with
  | zero => exact ⟨s₀, by simp [loop], h₀⟩
  | succ n ih =>
    obtain ⟨s₁, h₁, hi₁⟩ := ih (fun k s hk hi => hstep k s (Nat.lt_succ_of_lt hk) hi)
    obtain ⟨s₂, h₂, hi₂⟩ := hstep n s₁ (Nat.lt_succ_self n) hi₁
    refine ⟨s₂, ?_, hi₂⟩
    rw [List.range_succ, loop_append, h₁]
    simp [loop, h₂]

/-- A descending counted loop establishes `Inv 0` from `Inv n` when each pass takes
`Inv (k + 1)` to `Inv k` without fault. -/
theorem loop_range_reverse {σ : Type} (body : σ → Nat → Outcome σ) (Inv : Nat → σ → Prop)
    (n : Nat) (s₀ : σ) (h₀ : Inv n s₀)
    (hstep : ∀ k s, k < n → Inv (k + 1) s → ∃ s', body s k = Except.ok s' ∧ Inv k s') :
    ∃ s', loop body (List.range n).reverse s₀ = Except.ok s' ∧ Inv 0 s' := by
  induction n generalizing s₀ with
  | zero => exact ⟨s₀, by simp [loop], h₀⟩
  | succ n ih =>
    obtain ⟨s₁, h₁, hi₁⟩ := hstep n s₀ (Nat.lt_succ_self n) h₀
    obtain ⟨s₂, h₂, hi₂⟩ := ih s₁ hi₁ (fun k s hk hi => hstep k s (Nat.lt_succ_of_lt hk) hi)
    refine ⟨s₂, ?_, hi₂⟩
    rw [List.range_succ, List.reverse_append]
    simp [loop, h₁, h₂]

/-! ## Reading a well-formed graph -/

theorem WellFormed.node_in_edge {M : Type} {g : Hypergraph M} (h : WellFormed g) {i : Nat}
    {nd : Node M} (hi : g.nodes[i]? = some nd) : nd.in_edge = i :=
  h.2.1 (i, nd) (List.mk_mem_enum_iff_getElem?.mpr hi)

theorem WellFormed.tail_lt {M : Type} {g : Hypergraph M} (h : WellFormed g) {i : Nat}
    {e : Edge M} (hi : g.edges[i]? = some e) {t : Nat} (ht : t ∈ e.tail) : t < i :=
  h.2.2.1 (i, e) (List.mk_mem_enum_iff_getElem?.mpr hi) t ht

theorem WellFormed.arity_eq {M : Type} {g : Hypergraph M} (h : WellFormed g) {i : Nat}
    {e : Edge M} (hi : g.edges[i]? = some e) : e.arity = e.tail.length :=
  h.2.2.2 e (List.getElem?_mem hi)

theorem WellFormed.edge_lt {M : Type} {g : Hypergraph M} (h : WellFormed g) {i : Nat}
    {e : Edge M} (hi : g.edges[i]? = some e) : i < g.nodes.length := by
  have := (List.getElem?_eq_some.mp hi).1
  rw [h.1] at this
  exact this

/-- In a well-formed graph every node index has its node, and the node's producing edge is
the edge of the same index. -/
theorem WellFormed.node_edge {M : Type} {g : Hypergraph M} (h : WellFormed g) {i : Nat}
    (hi : i < g.nodes.length) :
    ∃ nd e, g.nodes[i]? = some nd ∧ nd.in_edge = i ∧ g.edges[i]? = some e := by
  have he : i < g.edges.length := by rw [h.1]; exact hi
  exact ⟨g.nodes[i], g.edges[i], List.getElem?_eq_getElem hi,
    h.node_in_edge (List.getElem?_eq_getElem hi), List.getElem?_eq_getElem he⟩

/-! ## Gathering the tail values -/

theorem gatherLoop_eq {M : Type} (nodes : List (Node M)) (ts : List Nat) (ti : Nat)
    (done : List (Option M)) (hlen : done.length = ti) (hts : ∀ t ∈ ts, t < nodes.length) :
    gatherLoop nodes ts ti (done ++ List.replicate ts.length none) =
      Except.ok (done ++ ts.map (fun t => (nodes[t]?).map Node.f)) := by
  induction ts generalizing ti done with
  | nil => simp [gatherLoop]
  | cons t rest ih =>
    have ht : t < nodes.length := hts t (List.mem_cons_self t rest)
    have hnd : nodes[t]? = some nodes[t] := List.getElem?_eq_getElem ht
    have hset : (done ++ List.replicate (t :: rest).length none).set ti (some nodes[t].f) =
        (done ++ [some nodes[t].f]) ++ List.replicate rest.length none := by
      subst hlen
      simp [List.replicate_succ]
    have hlt : ti < (done ++ List.replicate (t :: rest).length none).length := by
      simp [hlen]
    rw [gatherLoop]
    simp only [hnd, hlt, if_true, hset]
    rw [ih (ti + 1) (done ++ [some nodes[t].f]) (by simp [hlen])
      (fun t' ht' => hts t' (List.mem_cons_of_mem t ht'))]
    simp [hnd]

/-- With the arity equal to the number of tails and every tail in range, `gather` yields
the tail values in tail order. -/
theorem gather_eq {M : Type} (nodes : List (Node M)) (e : Edge M)
    (har : e.arity = e.tail.length) (hts : ∀ t ∈ e.tail, t < nodes.length) :
    gather nodes e = Except.ok (tailValues nodes e) := by
  have := gatherLoop_eq nodes e.tail 0 [] rfl hts
  simpa [gather, tailValues, har] using this

/-! ## `forward` -/

theorem tailValues_set {M : Type} (nodes : List (Node M)) (e : Edge M) (k : Nat)
    (x : Node M) (h : ∀ t ∈ e.tail, t ≠ k) :
    tailValues (nodes.set k x) e = tailValues nodes e := by
  unfold tailValues
  apply List.map_congr_left
  intro t ht
  rw [List.getElem?_set_ne (Ne.symm (h t ht))]

theorem forwardInv_init {R M : Type} (ops : MatrixOps R M) (g : Hypergraph M) :
    ForwardInv ops g 0 { g := g, calls := [] } where
  edges := rfl
  len := rfl
  frame := fun _ nd₀ h => ⟨nd₀, h, rfl, rfl, fun _ => rfl⟩
  done := fun i _ _ hi => absurd hi (Nat.not_lt_zero i)
  calls := by simp

theorem forwardInv_step {R M : Type} (ops : MatrixOps R M) (g : Hypergraph M)
    (hwf : WellFormed g) (k : Nat) (s : Trav M) (hk : k < g.nodes.length)
    (inv : ForwardInv ops g k s) :
    ∃ s', forwardStep ops s k = Except.ok s' ∧ ForwardInv ops g (k + 1) s' := by
  obtain ⟨nd₀, e, hnd₀, hin₀, he⟩ := hwf.node_edge hk
  obtain ⟨nd, hnd, hin, _, _⟩ := inv.frame k nd₀ hnd₀
  have hink : nd.in_edge = k := by rw [hin, hin₀]
  have hes : s.g.edges[nd.in_edge]? = some e := by rw [inv.edges, hink]; exact he
  have htl : ∀ t ∈ e.tail, t < s.g.nodes.length := fun t ht => by
    rw [inv.len]; exact Nat.lt_trans (hwf.tail_lt he ht) hk
  have hg := gather_eq s.g.nodes e (hwf.arity_eq he) htl
  have hks : k < s.g.nodes.length := by rw [inv.len]; exact hk
  have hstep : forwardStep ops s k = Except.ok
      { g := { s.g with
               nodes := s.g.nodes.set k
                 { nd with
                   f := e.forward (tailValues s.g.nodes e),
                   dEdf := ops.Zero (ops.rows (e.forward (tailValues s.g.nodes e)))
                     (ops.cols (e.forward (tailValues s.g.nodes e))) } },
        calls := s.calls ++ [Call.forward nd.in_edge] } := by
    simp only [forwardStep, hnd, hes, hg]
  refine ⟨_, hstep, ?_⟩
  constructor
  · exact inv.edges
  · simp [inv.len]
  · intro i n₀ hi
    by_cases hik : i = k
    · subst hik
      rw [hnd₀] at hi
      cases hi
      exact ⟨_, List.getElem?_set_self hks, hin, by assumption, fun h => absurd h (by omega)⟩
    · obtain ⟨n, hn, h₁, h₂, h₃⟩ := inv.frame i n₀ hi
      refine ⟨n, ?_, h₁, h₂, fun h => h₃ (by omega)⟩
      simp only []
      rw [List.getElem?_set_ne (Ne.symm hik)]
      exact hn
  · intro i n e' hi hn he'
    have hne : ∀ t ∈ e'.tail, t ≠ k := fun t ht => by
      have := hwf.tail_lt he' ht
      omega
    simp only [] at hn ⊢
    rw [tailValues_set _ _ _ _ hne]
    by_cases hik : i = k
    · subst hik
      rw [List.getElem?_set_self hks] at hn
      rw [he] at he'
      cases hn
      cases he'
      exact ⟨rfl, rfl⟩
    · rw [List.getElem?_set_ne (Ne.symm hik)] at hn
      exact inv.done i n e' (by omega) hn he'
  · simp [inv.calls, List.range_succ, hink]

/-- On a well-formed graph the loop of `forward` runs to the end. -/
theorem forward_loop {R M : Type} (ops : MatrixOps R M) (g : Hypergraph M)
    (hwf : WellFormed g) :
    ∃ s, loop (forwardStep ops) (List.range g.nodes.length) { g := g, calls := [] } =
        Except.ok s ∧ ForwardInv ops g g.nodes.length s :=
  loop_range (forwardStep ops) (ForwardInv ops g) g.nodes.length _ (forwardInv_init ops g)
    (fun k s hk inv => forwardInv_step ops g hwf k s hk inv)

/-- What `forward` leaves behind on a well-formed graph, in terms of the final state of its
loop: the loop invariant at the node count, and the value returned. -/
theorem forward_spec {R M : Type} (ops : MatrixOps R M) (g : Hypergraph M)
    (hwf : WellFormed g) (hne : 0 < g.nodes.length) :
    ∃ s last, forward ops g = Except.ok (last.f, s) ∧ ForwardInv ops g g.nodes.length s ∧
      s.g.nodes.getLast? = some last := by
  obtain ⟨s, hloop, inv⟩ := forward_loop ops g hwf
  have hlt : s.g.nodes.length - 1 < s.g.nodes.length := by rw [inv.len]; omega
  have hlast : s.g.nodes.getLast? = some s.g.nodes[s.g.nodes.length - 1] := by
    rw [List.getLast?_eq_getElem?, List.getElem?_eq_getElem hlt]
  exact ⟨s, _, by simp only [forward, hloop, hlast], inv, hlast⟩

/-- C3. Postcondition of `Hypergraph::forward`: on a well-formed graph with at least one
node, `forward` returns a value; afterwards the edges and the node count are unchanged,
every node `i` still names edge `i`, its `f` is that edge's `forward` applied to the `f`
values of its tails in tail order, its `dEdf` is the zero matrix with the rows and columns
of its `f`, the `forward` formulas were invoked once each in increasing node order, and
the value returned is the `f` of the last node. -/
theorem forward_postcondition {R M : Type} (ops : MatrixOps R M) (g : Hypergraph M)
    (hwf : WellFormed g) (hne : 0 < g.nodes.length) :
    ∃ v s, forward ops g = Except.ok (v, s) ∧
      s.g.edges = g.edges ∧ s.g.nodes.length = g.nodes.length ∧
      (∀ (i : Nat) (nd : Node M), s.g.nodes[i]? = some nd →
        ∃ e : Edge M, nd.in_edge = i ∧ s.g.edges[i]? = some e ∧
          nd.f = e.forward (e.tail.map (fun t => (s.g.nodes[t]?).map Node.f)) ∧
          nd.dEdf = ops.Zero (ops.rows nd.f) (ops.cols nd.f)) ∧
      s.calls = (List.range g.nodes.length).map Call.forward ∧
      (s.g.nodes.getLast?).map Node.f = some v := by
  obtain ⟨s, last, hfw, inv, hlast⟩ := forward_spec ops g hwf hne
  refine ⟨last.f, s, hfw, inv.edges, inv.len, ?_, inv.calls, by rw [hlast]; rfl⟩
  intro i nd hnd
  have hi : i < g.nodes.length := by
    rw [← inv.len]; exact (List.getElem?_eq_some.mp hnd).1
  obtain ⟨nd₀, e, hnd₀, hin₀, he⟩ := hwf.node_edge hi
  obtain ⟨nd', hnd', hin, _, _⟩ := inv.frame i nd₀ hnd₀
  rw [hnd] at hnd'
  cases hnd'
  have := inv.done i nd e hi hnd he
  exact ⟨e, by rw [hin, hin₀], by rw [inv.edges]; exact he, this.1, this.2⟩

/-! ## The liveness pass -/

theorem any_congr_mem {α : Type} (l : List α) (p q : α → Bool)
    (h : ∀ a ∈ l, p a = q a) : l.any p = l.any q := by
  induction l with
  | nil => rfl
  | cons a rest ih =>
    simp only [List.any_cons]
    rw [h a (List.mem_cons_self a rest), ih (fun b hb => h b (List.mem_cons_of_mem a hb))]

theorem orTails_eq (flags : List Bool) (ts : List Nat) (v : Bool)
    (hts : ∀ t ∈ ts, t < flags.length) :
    orTails flags ts v = Except.ok (v || ts.any (fun t => (flags[t]?).getD false)) := by
  induction ts generalizing v with
  | nil => simp [orTails]
  | cons t rest ih =>
    have hlt : t < flags.length := hts t (List.mem_cons_self t rest)
    have ht : flags[t]? = some flags[t] := List.getElem?_eq_getElem hlt
    rw [orTails]
    simp only [ht]
    rw [ih _ (fun t' ht' => hts t' (List.mem_cons_of_mem t ht'))]
    simp [ht, Bool.or_assoc]

theorem livenessInv_init {M : Type} (g : Hypergraph M) :
    LivenessInv g 0 (List.replicate g.nodes.length false) where
  len := by simp
  done := fun i _ hi => absurd hi (Nat.not_lt_zero i)

theorem livenessInv_step {M : Type} (g : Hypergraph M) (hwf : WellFormed g) (k : Nat)
    (flags : List Bool) (hk : k < g.nodes.length) (inv : LivenessInv g k flags) :
    ∃ flags', livenessStep g flags k = Except.ok flags' ∧ LivenessInv g (k + 1) flags' := by
  obtain ⟨nd, e, hnd, hin, he⟩ := hwf.node_edge hk
  have hes : g.edges[nd.in_edge]? = some e := by rw [hin]; exact he
  have htl : ∀ t ∈ e.tail, t < flags.length := fun t ht => by
    rw [inv.len]; exact Nat.lt_trans (hwf.tail_lt he ht) hk
  have hstep : livenessStep g flags k = Except.ok
      (flags.set k (e.has_parameters || e.tail.any (fun t => (flags[t]?).getD false))) := by
    simp only [livenessStep, hnd, hes, orTails_eq flags e.tail _ htl]
  refine ⟨_, hstep, ?_⟩
  have hkf : k < flags.length := by rw [inv.len]; exact hk
  constructor
  · simp [inv.len]
  · intro i e' hi he'
    have hany : e'.tail.any (fun t => ((flags.set k
          (e.has_parameters || e.tail.any (fun t => (flags[t]?).getD false)))[t]?).getD false)
        = e'.tail.any (fun t => (flags[t]?).getD false) := by
      apply any_congr_mem
      intro t ht
      have := hwf.tail_lt he' ht
      rw [List.getElem?_set_ne (by omega)]
    rw [hany]
    by_cases hik : i = k
    · subst hik
      rw [he] at he'
      cases he'
      exact List.getElem?_set_self hkf
    · rw [List.getElem?_set_ne (Ne.symm hik)]
      exact inv.done i e' (by omega) he'

/-- On a well-formed graph the liveness pass runs to the end, and the flag of every node
is the disjunction of its edge's `has_parameters()` and the flags of its tails. -/
theorem liveness_spec {M : Type} (g : Hypergraph M) (hwf : WellFormed g) :
    ∃ flags, liveness g = Except.ok flags ∧ LivenessInv g g.nodes.length flags :=
  loop_range (livenessStep g) (LivenessInv g) g.nodes.length _ (livenessInv_init g)
    (fun k s hk inv => livenessInv_step g hwf k s hk inv)

/-- The flag equation read at one node. -/
theorem LivenessInv.flag_eq {M : Type} {g : Hypergraph M} {flags : List Bool}
    (inv : LivenessInv g g.nodes.length flags) (hwf : WellFormed g) {i : Nat} {e : Edge M}
    (he : g.edges[i]? = some e) :
    flags[i]? = some (e.has_parameters || e.tail.any (fun t => (flags[t]?).getD false)) :=
  inv.done i e (hwf.edge_lt he) he

/-- A live tail makes its head live. -/
theorem LivenessInv.live_of_tail {M : Type} {g : Hypergraph M} {flags : List Bool}
    (inv : LivenessInv g g.nodes.length flags) (hwf : WellFormed g) {i t : Nat} {e : Edge M}
    (he : g.edges[i]? = some e) (ht : t ∈ e.tail) (hlive : flags[t]? = some true) :
    flags[i]? = some true := by
  rw [inv.flag_eq hwf he]
  have : e.tail.any (fun t => (flags[t]?).getD false) = true :=
    List.any_eq_true.mpr ⟨t, ht, by simp [hlive]⟩
  simp [this]

theorem livenessStep_congr {M : Type} (g g' : Hypergraph M) (h : SameShape g g')
    (flags : List Bool) (ni : Nat) : livenessStep g' flags ni = livenessStep g flags ni := by
  have hn : (g'.nodes[ni]?).map Node.in_edge = (g.nodes[ni]?).map Node.in_edge := by
    rw [← List.getElem?_map, ← List.getElem?_map, h.1]
  have he : ∀ j : Nat, (g'.edges[j]?).map (fun e : Edge M => (e.tail, e.has_parameters)) =
      (g.edges[j]?).map (fun e : Edge M => (e.tail, e.has_parameters)) := fun j => by
    rw [← List.getElem?_map, ← List.getElem?_map, h.2]
  unfold livenessStep
  cases hnd : g.nodes[ni]? with
  | none =>
    cases hnd' : g'.nodes[ni]? with
    | none => rfl
    | some nd' => simp [hnd, hnd'] at hn
  | some nd =>
    cases hnd' : g'.nodes[ni]? with
    | none => simp [hnd, hnd'] at hn
    | some nd' =>
      have hin : nd'.in_edge = nd.in_edge := by simpa [hnd, hnd'] using hn
      have hej := he nd.in_edge
      simp only [hin]
      cases hed : g.edges[nd.in_edge]? with
      | none =>
        cases hed' : g'.edges[nd.in_edge]? with
        | none => rfl
        | some e' => simp [hed, hed'] at hej
      | some e =>
        cases hed' : g'.edges[nd.in_edge]? with
        | none => simp [hed, hed'] at hej
        | some e' =>
          have : e'.tail = e.tail ∧ e'.has_parameters = e.has_parameters := by
            simpa [hed, hed'] using hej
          simp only [this.1, this.2]

/-- The liveness pass reads only the shape of the graph. -/
theorem liveness_congr {M : Type} (g g' : Hypergraph M) (h : SameShape g g') :
    liveness g' = liveness g := by
  have hlen : g'.nodes.length = g.nodes.length := by
    have := congrArg List.length h.1
    simpa using this
  have hbody : livenessStep g' = livenessStep g :=
    funext fun flags => funext fun ni => livenessStep_congr g g' h flags ni
  unfold liveness
  rw [hlen, hbody]

theorem LivenessInv.live_of_reaches {M : Type} {g : Hypergraph M} {flags : List Bool}
    (inv : LivenessInv g g.nodes.length flags) (hwf : WellFormed g) {a i : Nat}
    (hreach : Reaches g a i) (howns : OwnsParameters g a) : flags[i]? = some true := by
  induction hreach with
  | refl =>
    obtain ⟨nd, e, hnd, he, hp⟩ := howns
    rw [hwf.node_in_edge hnd] at he
    rw [inv.flag_eq hwf he, hp]
    rfl
  | tail _ hbc ih =>
    obtain ⟨nd, e, hnd, he, ht⟩ := hbc
    rw [hwf.node_in_edge hnd] at he
    exact inv.live_of_tail hwf he ht ih

theorem LivenessInv.reaches_of_live {M : Type} {g : Hypergraph M} {flags : List Bool}
    (inv : LivenessInv g g.nodes.length flags) (hwf : WellFormed g) (i : Nat)
    (hlive : flags[i]? = some true) : ∃ a, Reaches g a i ∧ OwnsParameters g a := by
  induction i using Nat.strong_induction_on with
  | _ i ih =>
    have hi : i < g.nodes.length := by
      rw [← inv.len]; exact (List.getElem?_eq_some.mp hlive).1
    obtain ⟨nd, e, hnd, hin, he⟩ := hwf.node_edge hi
    have he' : g.edges[nd.in_edge]? = some e := by rw [hin]; exact he
    have heq := inv.flag_eq hwf he
    rw [hlive] at heq
    have hor : (e.has_parameters || e.tail.any (fun t => (flags[t]?).getD false)) = true :=
      (Option.some.inj heq).symm
    rcases Bool.or_eq_true _ _ ▸ hor with hp | hany
    · exact ⟨i, Relation.ReflTransGen.refl, nd, e, hnd, he', hp⟩
    · obtain ⟨t, ht, hlt⟩ := List.any_eq_true.mp hany
      have hft : flags[t]? = some true := by
        cases hf : flags[t]? with
        | none => simp [hf] at hlt
        | some b => simp [hf] at hlt; rw [hlt]
      obtain ⟨a, hreach, howns⟩ := ih t (hwf.tail_lt he ht) hft
      exact ⟨a, Relation.ReflTransGen.tail hreach ⟨nd, e, hnd, he', ht⟩, howns⟩

/-- C5. Characterisation of the liveness pass of `Hypergraph::backward`: on a well-formed
graph the pass runs to the end with one flag per node; the flag of node `i` is true exactly
when some node that reaches `i` along tail-to-head links (`i` itself included) is produced
by an edge with `has_parameters()`; a node with no such ancestor is flagged false; and any
graph of the same shape (same producers, tails and `has_parameters()`, whatever its values
and gradients) gets the same flags. -/
theorem liveness_characterisation {M : Type} (g : Hypergraph M) (hwf : WellFormed g) :
    ∃ flags, liveness g = Except.ok flags ∧ flags.length = g.nodes.length ∧
      (∀ i, flags[i]? = some true ↔ ∃ a, Reaches g a i ∧ OwnsParameters g a) ∧
      (∀ i, i < g.nodes.length → (∀ a, Reaches g a i → ¬ OwnsParameters g a) →
        flags[i]? = some false) ∧
      (∀ g' : Hypergraph M, SameShape g g' → liveness g' = Except.ok flags) := by
  obtain ⟨flags, hlive, inv⟩ := liveness_spec g hwf
  have hiff : ∀ i, flags[i]? = some true ↔ ∃ a, Reaches g a i ∧ OwnsParameters g a :=
    fun i => ⟨inv.reaches_of_live hwf i, fun ⟨_, hr, ho⟩ => inv.live_of_reaches hwf hr ho⟩
  refine ⟨flags, hlive, inv.len, hiff, ?_, fun g' h => by rw [liveness_congr g g' h, hlive]⟩
  intro i hi hno
  have hlt : i < flags.length := by rw [inv.len]; exact hi
  cases hb : flags[i] with
  | false => rw [List.getElem?_eq_getElem hlt, hb]
  | true =>
    have : flags[i]? = some true := by rw [List.getElem?_eq_getElem hlt, hb]
    obtain ⟨a, hr, ho⟩ := (hiff i).mp this
    exact absurd ho (hno a hr)

/-! ## The reverse sweep -/

theorem posContribs_nil {M : Type} (e : Edge M) (xs : List (Option M)) (fi di : M)
    (j ti : Nat) : posContribs e xs fi di j [] ti = [] := rfl

theorem posContribs_cons_self {M : Type} (e : Edge M) (xs : List (Option M)) (fi di : M)
    (j : Nat) (rest : List Nat) (ti : Nat) :
    posContribs e xs fi di j (j :: rest) ti =
      e.backward xs fi di ti :: posContribs e xs fi di j rest (ti + 1) := by
  simp [posContribs, List.enumFrom_cons]

theorem posContribs_cons_ne {M : Type} (e : Edge M) (xs : List (Option M)) (fi di : M)
    (j t : Nat) (h : t ≠ j) (rest : List Nat) (ti : Nat) :
    posContribs e xs fi di j (t :: rest) ti = posContribs e xs fi di j rest (ti + 1) := by
  simp [posContribs, List.enumFrom_cons, h]

theorem posContribs_not_mem {M : Type} (e : Edge M) (xs : List (Option M)) (fi di : M)
    (j : Nat) (ts : List Nat) (ti : Nat) (h : j ∉ ts) :
    posContribs e xs fi di j ts ti = [] := by
  induction ts generalizing ti with
  | nil => rfl
  | cons t rest ih =>
    have hne : t ≠ j := fun h' => h (h' ▸ List.mem_cons_self t rest)
    rw [posContribs_cons_ne _ _ _ _ _ _ hne, ih _ (fun h' => h (List.mem_cons_of_mem t h'))]

/-- The inner loop of the reverse sweep at node `i`, whose tails all precede `i`: it runs
to the end, keeps the shape of the graph, and each node gains exactly the contributions of
the positions that hold it, provided the sweep adds into it at all. -/
theorem backwardTails_spec {R M : Type} (ops : MatrixOps R M) (filter : Bool)
    (flags : List Bool) (i : Nat) (e : Edge M) (xs : List (Option M)) (ndi : Node M)
    (ts : List Nat) (ti : Nat) (s : Trav M) (hts : ∀ t ∈ ts, t < i)
    (hi : s.g.nodes[i]? = some ndi) (hlen : flags.length = s.g.nodes.length) :
    ∃ s', backwardTails ops filter flags i e xs ts ti s = Except.ok s' ∧
      s'.g.edges = s.g.edges ∧ s'.g.nodes.length = s.g.nodes.length ∧
      (∀ j : Nat, s'.g.nodes[j]? = (s.g.nodes[j]?).map (fun nd : Node M =>
        { nd with
          dEdf := (if receives filter flags j then posContribs e xs ndi.f ndi.dEdf j ts ti
            else []).foldl ops.add nd.dEdf })) ∧
      s'.calls = s.calls ++
        ((ts.enumFrom ti).filter (fun p => receives filter flags p.2)).map
          (fun p => Call.backward ndi.in_edge p.1) := by
  induction ts generalizing ti s with
  | nil =>
    refine ⟨s, rfl, rfl, rfl, fun j => ?_, by simp⟩
    cases s.g.nodes[j]? <;> simp [posContribs_nil]
  | cons t rest ih =>
    have hti : t < i := hts t (List.mem_cons_self t rest)
    have hilt : i < s.g.nodes.length := (List.getElem?_eq_some.mp hi).1
    have htlt : t < s.g.nodes.length := Nat.lt_trans hti hilt
    have htf : t < flags.length := by rw [hlen]; exact htlt
    have hft : flags[t]? = some flags[t] := List.getElem?_eq_getElem htf
    have hnt : s.g.nodes[t]? = some s.g.nodes[t] := List.getElem?_eq_getElem htlt
    have hrest : ∀ t' ∈ rest, t' < i := fun t' h => hts t' (List.mem_cons_of_mem t h)
    have hrec : receives filter flags t = (flags[t] || !filter) := by
      simp [receives, hft]
    rw [backwardTails]
    simp only [hft, hnt, hi]
    by_cases hb : (flags[t] || !filter) = true
    · simp only [hb, if_true]
      obtain ⟨s', hrun, hed, hln, hnodes, hcalls⟩ := ih (ti + 1)
        { g := { s.g with
                 nodes := s.g.nodes.set t
                   { s.g.nodes[t] with
                     dEdf := ops.add s.g.nodes[t].dEdf
                       (e.backward xs ndi.f ndi.dEdf ti) } },
          calls := s.calls ++ [Call.backward ndi.in_edge ti] }
        hrest
        (by simp only []; rw [List.getElem?_set_ne (by omega)]; exact hi)
        (by simp [hlen])
      refine ⟨s', hrun, hed, by simpa using hln, fun j => ?_, ?_⟩
      · rw [hnodes j]
        simp only []
        by_cases hjt : j = t
        · subst hjt
          rw [List.getElem?_set_self htlt, hnt, hrec, hb]
          simp [posContribs_cons_self]
        · rw [List.getElem?_set_ne (Ne.symm hjt),
            posContribs_cons_ne _ _ _ _ _ _ (Ne.symm hjt)]
      · rw [hcalls]
        simp [List.enumFrom_cons, hrec, hb]
    · simp only [hb, if_false]
      obtain ⟨s', hrun, hed, hln, hnodes, hcalls⟩ := ih (ti + 1) s hrest hi hlen
      refine ⟨s', hrun, hed, hln, fun j => ?_, ?_⟩
      · rw [hnodes j]
        by_cases hjt : j = t
        · subst hjt
          simp [hrec, hb]
        · rw [posContribs_cons_ne _ _ _ _ _ _ (Ne.symm hjt)]
      · rw [hcalls]
        simp [List.enumFrom_cons, hrec, hb]

theorem contributionsFrom_step {M : Type} (g : Hypergraph M) (j k : Nat)
    (hk : k < g.nodes.length) :
    contributionsFrom g j k = contributionsFrom g j (k + 1) ++ edgeContributions g j k := by
  have hsub : g.nodes.length - k = (g.nodes.length - (k + 1)) + 1 := by omega
  unfold contributionsFrom
  rw [hsub, List.range'_succ]
  simp

theorem contributionsFrom_length {M : Type} (g : Hypergraph M) (j : Nat) :
    contributionsFrom g j g.nodes.length = [] := by
  simp [contributionsFrom]

theorem contributionsFrom_zero {M : Type} (g : Hypergraph M) (j : Nat) :
    contributionsFrom g j 0 = contributions g j := by
  simp [contributionsFrom, contributions, List.range_eq_range']

theorem tailValues_congr {M : Type} (nodes nodes' : List (Node M)) (e : Edge M)
    (hf : ∀ t ∈ e.tail, (nodes'[t]?).map Node.f = (nodes[t]?).map Node.f) :
    tailValues nodes' e = tailValues nodes e := by
  unfold tailValues
  exact List.map_congr_left hf

/-- The contributions of node `i` depend on the graph only through the edges, the values
of all nodes and the record of node `i`. -/
theorem edgeContributions_congr {M : Type} (g g' : Hypergraph M) (j i : Nat)
    (hedges : g'.edges = g.edges)
    (hf : ∀ t : Nat, (g'.nodes[t]?).map Node.f = (g.nodes[t]?).map Node.f)
    (hi : g'.nodes[i]? = g.nodes[i]?) :
    edgeContributions g' j i = edgeContributions g j i := by
  unfold edgeContributions
  rw [hi, hedges]
  cases g.nodes[i]? with
  | none => rfl
  | some nd =>
    simp only []
    cases g.edges[nd.in_edge]? with
    | none => rfl
    | some e =>
      simp only []
      rw [tailValues_congr g.nodes g'.nodes e (fun t _ => hf t)]

theorem contributionsFrom_congr {M : Type} (g g' : Hypergraph M) (j k : Nat)
    (hedges : g'.edges = g.edges) (hlen : g'.nodes.length = g.nodes.length)
    (hf : ∀ t : Nat, (g'.nodes[t]?).map Node.f = (g.nodes[t]?).map Node.f)
    (hi : ∀ i : Nat, k ≤ i → g'.nodes[i]? = g.nodes[i]?) :
    contributionsFrom g' j k = contributionsFrom g j k := by
  unfold contributionsFrom
  rw [hlen]
  congr 1
  apply List.map_congr_left
  intro i hmem
  have : k ≤ i := by
    have := List.mem_reverse.mp hmem
    exact (List.mem_range'_1.mp this).1
  exact edgeContributions_congr g g' j i hedges hf (hi i this)

theorem backwardInv_init {R M : Type} (ops : MatrixOps R M) (filter : Bool)
    (flags : List Bool) (g₁ : Hypergraph M) :
    BackwardInv ops filter flags g₁ g₁.nodes.length { g := g₁, calls := [] } where
  edges := rfl
  len := rfl
  nodes := fun j nd₁ h => by
    simp only [contributionsFrom_length, ite_self, List.foldl_nil]
    exact h
  calls := by simp [sweepCallsFrom]

theorem backwardInv_step {R M : Type} (ops : MatrixOps R M) (filter : Bool)
    (flags : List Bool) (g₁ : Hypergraph M) (hwf : WellFormed g₁)
    (hfl : flags.length = g₁.nodes.length) (k : Nat) (s : Trav M)
    (hk : k < g₁.nodes.length) (inv : BackwardInv ops filter flags g₁ (k + 1) s) :
    ∃ s', backwardStep ops filter flags s k = Except.ok s' ∧
      BackwardInv ops filter flags g₁ k s' := by
  obtain ⟨nd₁, e, hnd₁, hin₁, he⟩ := hwf.node_edge hk
  have hsk := inv.nodes k nd₁ hnd₁
  have hes : s.g.edges[nd₁.in_edge]? = some e := by rw [inv.edges, hin₁]; exact he
  have htk : ∀ t ∈ e.tail, t < k := fun t ht => hwf.tail_lt he ht
  have hg := gather_eq s.g.nodes e (hwf.arity_eq he)
    (fun t ht => by rw [inv.len]; exact Nat.lt_trans (htk t ht) hk)
  obtain ⟨s', hrun, hed, hln, hnodes, hcalls⟩ := backwardTails_spec ops filter flags k e
    (tailValues s.g.nodes e) _ e.tail 0 s htk hsk (hfl.trans inv.len.symm)
  have hstep : backwardStep ops filter flags s k = Except.ok s' := by
    simp only [backwardStep, hsk, hes, hg]
    exact hrun
  have hkeep : ∀ i, k ≤ i → s'.g.nodes[i]? = s.g.nodes[i]? := fun i hi => by
    have hnot : i ∉ e.tail := fun h => absurd (htk i h) (by omega)
    rw [hnodes i]
    simp only [posContribs_not_mem _ _ _ _ _ _ _ hnot, ite_self, List.foldl_nil]
    cases s.g.nodes[i]? <;> rfl
  have hf : ∀ t, (s'.g.nodes[t]?).map Node.f = (s.g.nodes[t]?).map Node.f := fun t => by
    rw [hnodes t]
    cases s.g.nodes[t]? <;> rfl
  have hcalls' : s'.calls = sweepCallsFrom filter flags g₁ k := by
    have hsub : g₁.nodes.length - k = (g₁.nodes.length - (k + 1)) + 1 := by omega
    have hek : edgeCalls filter flags g₁ k =
        ((e.tail.enumFrom 0).filter (fun p => receives filter flags p.2)).map
          (fun p => Call.backward nd₁.in_edge p.1) := by
      have he₁ : g₁.edges[nd₁.in_edge]? = some e := by rw [hin₁]; exact he
      simp only [edgeCalls, hnd₁, he₁]
    rw [hcalls, inv.calls]
    unfold sweepCallsFrom
    rw [hsub, List.range'_succ]
    simp [hek]
  refine ⟨s', hstep, hed.trans inv.edges, hln.trans inv.len, fun j n₁ hj => ?_, hcalls'⟩
  rw [hnodes j, inv.nodes j n₁ hj]
  simp only [Option.map_some']
  have hlist : (if receives filter flags j then contributionsFrom s'.g j k else []) =
      (if receives filter flags j then contributionsFrom s.g j (k + 1) else []) ++
        (if receives filter flags j then
          posContribs e (tailValues s.g.nodes e) nd₁.f
            ((if receives filter flags k then contributionsFrom s.g k (k + 1) else []).foldl
              ops.add nd₁.dEdf) j e.tail 0
        else []) := by
    by_cases hr : receives filter flags j = true
    · simp only [hr, if_true]
      rw [contributionsFrom_step s'.g j k (by rw [hln, inv.len]; exact hk),
        contributionsFrom_congr s.g s'.g j (k + 1) hed hln hf
          (fun i hi => hkeep i (by omega))]
      congr 1
      unfold edgeContributions
      rw [hkeep k (Nat.le_refl k), hsk]
      simp only []
      rw [hed, hes]
      simp only []
      rw [tailValues_congr s.g.nodes s'.g.nodes e (fun t _ => hf t)]
    · simp [hr]
  rw [hlist, List.foldl_append]

/-- Well-formedness reads only the edges and the producer of every node. -/
theorem WellFormed.transfer {M : Type} {g g' : Hypergraph M} (hwf : WellFormed g)
    (hedges : g'.edges = g.edges) (hlen : g'.nodes.length = g.nodes.length)
    (hnodes : ∀ (i : Nat) (nd' : Node M), g'.nodes[i]? = some nd' →
      ∃ nd, g.nodes[i]? = some nd ∧ nd'.in_edge = nd.in_edge) :
    WellFormed g' := by
  refine ⟨?_, ?_, ?_, ?_⟩
  · unfold EdgePerNode
    rw [hedges, hlen]
    exact hwf.1
  · intro p hp
    obtain ⟨nd, hnd, hin⟩ := hnodes p.1 p.2 (List.mem_enum_iff_getElem?.mp hp)
    rw [hin]
    exact hwf.node_in_edge hnd
  · unfold TailsPrecede
    rw [hedges]
    exact hwf.2.2.1
  · unfold ArityIsTails
    rw [hedges]
    exact hwf.2.2.2

/-- The seeding of the last gradient on a graph with at least one node. -/
theorem seed_spec {R M : Type} (ops : MatrixOps R M) (g : Hypergraph M)
    (hne : 0 < g.nodes.length) :
    ∃ g₁, seed ops g = Except.ok g₁ ∧ g₁.edges = g.edges ∧
      g₁.nodes.length = g.nodes.length ∧
      ∀ (j : Nat) (nd₀ : Node M), g.nodes[j]? = some nd₀ →
        g₁.nodes[j]? = some
          { nd₀ with
            dEdf := if j + 1 = g.nodes.length then ops.scalar ops.one else nd₀.dEdf } := by
  have hlt : g.nodes.length - 1 < g.nodes.length := by omega
  have hlast : g.nodes.getLast? = some g.nodes[g.nodes.length - 1] := by
    rw [List.getLast?_eq_getElem?, List.getElem?_eq_getElem hlt]
  have hseed : seed ops g = Except.ok
      { g with
        nodes := g.nodes.set (g.nodes.length - 1)
          { g.nodes[g.nodes.length - 1] with dEdf := ops.scalar ops.one } } := by
    simp only [seed, hlast]
  refine ⟨_, hseed, rfl, by simp, fun j nd₀ hj => ?_⟩
  simp only []
  by_cases hjl : j + 1 = g.nodes.length
  · have hj' : j = g.nodes.length - 1 := by omega
    subst hj'
    rw [List.getElem?_eq_getElem hlt] at hj
    cases hj
    rw [List.getElem?_set_self hlt]
    simp [hjl]
  · rw [List.getElem?_set_ne (by omega), hj]
    simp [hjl]

theorem seed_wellFormed {R M : Type} (ops : MatrixOps R M) (g g₁ : Hypergraph M)
    (hwf : WellFormed g) (hedges : g₁.edges = g.edges)
    (hlen : g₁.nodes.length = g.nodes.length)
    (hnodes : ∀ (j : Nat) (nd₀ : Node M), g.nodes[j]? = some nd₀ →
      g₁.nodes[j]? = some
        { nd₀ with
          dEdf := if j + 1 = g.nodes.length then ops.scalar ops.one else nd₀.dEdf }) :
    WellFormed g₁ := by
  refine hwf.transfer hedges hlen (fun i nd' hi => ?_)
  have hlt : i < g.nodes.length := by
    rw [← hlen]; exact (List.getElem?_eq_some.mp hi).1
  refine ⟨g.nodes[i], List.getElem?_eq_getElem hlt, ?_⟩
  rw [hnodes i _ (List.getElem?_eq_getElem hlt)] at hi
  cases hi
  rfl

theorem edgeCalls_congr {M : Type} (filter : Bool) (flags : List Bool) (g g' : Hypergraph M)
    (hedges : g'.edges = g.edges)
    (hin : ∀ i : Nat, (g'.nodes[i]?).map Node.in_edge = (g.nodes[i]?).map Node.in_edge)
    (i : Nat) : edgeCalls filter flags g' i = edgeCalls filter flags g i := by
  have hi := hin i
  unfold edgeCalls
  rw [hedges]
  cases hnd : g.nodes[i]? with
  | none =>
    cases hnd' : g'.nodes[i]? with
    | none => rfl
    | some nd' => simp [hnd, hnd'] at hi
  | some nd =>
    cases hnd' : g'.nodes[i]? with
    | none => simp [hnd, hnd'] at hi
    | some nd' =>
      have : nd'.in_edge = nd.in_edge := by simpa [hnd, hnd'] using hi
      simp only [this]

theorem sweepCalls_congr {M : Type} (filter : Bool) (flags : List Bool) (g g' : Hypergraph M)
    (hedges : g'.edges = g.edges) (hlen : g'.nodes.length = g.nodes.length)
    (hin : ∀ i : Nat, (g'.nodes[i]?).map Node.in_edge = (g.nodes[i]?).map Node.in_edge) :
    sweepCalls filter flags g' = sweepCalls filter flags g := by
  unfold sweepCalls
  rw [hlen]
  congr 1
  exact List.map_congr_left (fun i _ => edgeCalls_congr filter flags g g' hedges hin i)

theorem sweepCallsFrom_zero {M : Type} (filter : Bool) (flags : List Bool)
    (g : Hypergraph M) : sweepCallsFrom filter flags g 0 = sweepCalls filter flags g := by
  simp [sweepCallsFrom, sweepCalls, List.range_eq_range']

/-- The reverse sweep on a well-formed graph with at least one node, with or without the
liveness test: it runs to the end, keeps edges, producers, names and values, and leaves in
each gradient its starting value (the seed `1` for the last node) plus, for the nodes the
sweep adds into, all contributions owed to the node, read off the final graph; the calls
it makes are those of `sweepCalls`. -/
theorem backwardWith_spec {R M : Type} (ops : MatrixOps R M) (filter : Bool)
    (g : Hypergraph M) (hwf : WellFormed g) (hne : 0 < g.nodes.length) :
    ∃ flags s, liveness g = Except.ok flags ∧ LivenessInv g g.nodes.length flags ∧
      backwardWith ops filter g = Except.ok s ∧ s.g.edges = g.edges ∧
      s.g.nodes.length = g.nodes.length ∧
      (∀ (j : Nat) (nd₀ : Node M), g.nodes[j]? = some nd₀ →
        s.g.nodes[j]? = some
          { nd₀ with
            dEdf := (if receives filter flags j then contributions s.g j else []).foldl
              ops.add (if j + 1 = g.nodes.length then ops.scalar ops.one else nd₀.dEdf) }) ∧
      s.calls = sweepCalls filter flags g := by
  obtain ⟨flags, hlive, linv⟩ := liveness_spec g hwf
  obtain ⟨g₁, hseed, hed₁, hlen₁, hn₁⟩ := seed_spec ops g hne
  have hwf₁ := seed_wellFormed ops g g₁ hwf hed₁ hlen₁ hn₁
  obtain ⟨s, hloop, inv⟩ := loop_range_reverse (backwardStep ops filter flags)
    (BackwardInv ops filter flags g₁) g₁.nodes.length { g := g₁, calls := [] }
    (backwardInv_init ops filter flags g₁)
    (fun k s hk inv =>
      backwardInv_step ops filter flags g₁ hwf₁ (linv.len.trans hlen₁.symm) k s hk inv)
  refine ⟨flags, s, hlive, linv, ?_, inv.edges.trans hed₁, inv.len.trans hlen₁, ?_, ?_⟩
  · simp only [backwardWith, hlive, hseed]
    rw [← hlen₁]
    exact hloop
  · intro j nd₀ hj
    have := inv.nodes j _ (hn₁ j nd₀ hj)
    rw [contributionsFrom_zero] at this
    exact this
  · rw [inv.calls, sweepCallsFrom_zero]
    refine sweepCalls_congr filter flags g g₁ hed₁ hlen₁ (fun i => ?_)
    cases hi : g.nodes[i]? with
    | none =>
      have : g₁.nodes.length ≤ i := by
        rw [hlen₁]; exact List.getElem?_eq_none_iff.mp hi
      rw [List.getElem?_eq_none this]
    | some nd₀ =>
      rw [hn₁ i nd₀ hi]
      rfl

/-- Every `backward` call of the reverse sweep is made by an edge of the graph, for one of
its tail positions, whose tail is a node the sweep adds into and is not the last node. -/
theorem mem_sweepCalls {M : Type} (filter : Bool) (flags : List Bool) (g : Hypergraph M)
    (hwf : WellFormed g) (ei ti : Nat) (hmem : Call.backward ei ti ∈ sweepCalls filter flags g) :
    ∃ e t, g.edges[ei]? = some e ∧ e.tail[ti]? = some t ∧ receives filter flags t = true ∧
      t + 1 < g.nodes.length := by
  unfold sweepCalls at hmem
  obtain ⟨l, hl, hc⟩ := List.mem_flatten.mp hmem
  obtain ⟨i, hi, rfl⟩ := List.mem_map.mp hl
  have hilt : i < g.nodes.length := List.mem_range.mp (List.mem_reverse.mp hi)
  obtain ⟨nd, e, hnd, hin, he⟩ := hwf.node_edge hilt
  have he' : g.edges[nd.in_edge]? = some e := by rw [hin]; exact he
  simp only [edgeCalls, hnd, he'] at hc
  obtain ⟨p, hp, hpe⟩ := List.mem_map.mp hc
  obtain ⟨hpm, hpr⟩ := List.mem_filter.mp hp
  have hei : nd.in_edge = ei := by injection hpe
  have hti : p.1 = ti := by injection hpe
  have hget : e.tail[p.1]? = some p.2 := by
    have := (List.mk_mem_enumFrom_iff_le_and_getElem?_sub (n := 0) (i := p.1) (x := p.2)
      (l := e.tail)).mp hpm
    simpa using this.2
  have hlt : p.2 < i := hwf.tail_lt he (List.getElem?_mem hget)
  refine ⟨e, p.2, ?_, ?_, hpr, by omega⟩
  · rw [← hei, hin]; exact he
  · rw [← hti]; exact hget

/-! ## `forward` followed by `backward` -/

theorem sameShape_of_pointwise {M : Type} (g g' : Hypergraph M) (hedges : g'.edges = g.edges)
    (hnodes : ∀ i : Nat, (g'.nodes[i]?).map Node.in_edge = (g.nodes[i]?).map Node.in_edge) :
    SameShape g g' := by
  refine ⟨List.ext_getElem? (fun i => ?_), by rw [hedges]⟩
  rw [List.getElem?_map, List.getElem?_map]
  exact hnodes i

theorem ForwardInv.sameShape {R M : Type} {ops : MatrixOps R M} {g : Hypergraph M} {k : Nat}
    {s : Trav M} (inv : ForwardInv ops g k s) : SameShape g s.g := by
  refine sameShape_of_pointwise g s.g inv.edges (fun i => ?_)
  cases hi : g.nodes[i]? with
  | none =>
    have : s.g.nodes.length ≤ i := by
      rw [inv.len]; exact List.getElem?_eq_none_iff.mp hi
    rw [List.getElem?_eq_none this]
  | some nd₀ =>
    obtain ⟨nd, hnd, hin, _, _⟩ := inv.frame i nd₀ hi
    rw [hnd]
    simp [hin]

theorem ForwardInv.wellFormed {R M : Type} {ops : MatrixOps R M} {g : Hypergraph M} {k : Nat}
    {s : Trav M} (inv : ForwardInv ops g k s) (hwf : WellFormed g) : WellFormed s.g := by
  refine hwf.transfer inv.edges inv.len (fun i nd' hi => ?_)
  have hlt : i < g.nodes.length := by
    rw [← inv.len]; exact (List.getElem?_eq_some.mp hi).1
  obtain ⟨nd, hnd, hin, _, _⟩ := inv.frame i _ (List.getElem?_eq_getElem hlt)
  rw [hnd] at hi
  cases hi
  exact ⟨_, List.getElem?_eq_getElem hlt, hin⟩

/-- No node at or above `i` is a tail of the producing edge of `i`. -/
theorem edgeContributions_of_le {M : Type} (g : Hypergraph M) (hwf : WellFormed g)
    (j i : Nat) (hij : i ≤ j) : edgeContributions g j i = [] := by
  unfold edgeContributions
  cases hnd : g.nodes[i]? with
  | none => rfl
  | some nd =>
    simp only []
    cases he : g.edges[nd.in_edge]? with
    | none => rfl
    | some e =>
      simp only []
      rw [hwf.node_in_edge hnd] at he
      exact posContribs_not_mem _ _ _ _ _ _ _
        (fun h => absurd (hwf.tail_lt he h) (by omega))

/-- Nothing is owed to the last node. -/
theorem contributions_last {M : Type} (g : Hypergraph M) (hwf : WellFormed g) (j : Nat)
    (hj : g.nodes.length ≤ j + 1) : contributions g j = [] := by
  unfold contributions
  rw [List.flatten_eq_nil_iff]
  intro l hl
  obtain ⟨i, hi, rfl⟩ := List.mem_map.mp hl
  have : i < g.nodes.length := List.mem_range.mp (List.mem_reverse.mp hi)
  exact edgeContributions_of_le g hwf j i (by omega)

/-- The reverse sweep leaves the seed in the gradient of the last node. -/
theorem backwardWith_last {R M : Type} (ops : MatrixOps R M) (filter : Bool)
    (g : Hypergraph M) (hwf : WellFormed g) (hne : 0 < g.nodes.length) :
    ∃ s last, backwardWith ops filter g = Except.ok s ∧ s.g.nodes.getLast? = some last ∧
      last.dEdf = ops.scalar ops.one := by
  obtain ⟨flags, s, _, _, hrun, hed, hlen, hnodes, _⟩ :=
    backwardWith_spec ops filter g hwf hne
  have hlt : g.nodes.length - 1 < g.nodes.length := by omega
  have hlast := hnodes _ _ (List.getElem?_eq_getElem hlt)
  have hwfs : WellFormed s.g := hwf.transfer hed hlen (fun i nd' hi => by
    have hi' : i < g.nodes.length := by
      rw [← hlen]; exact (List.getElem?_eq_some.mp hi).1
    rw [hnodes i _ (List.getElem?_eq_getElem hi')] at hi
    cases hi
    exact ⟨_, List.getElem?_eq_getElem hi', rfl⟩)
  rw [contributions_last s.g hwfs _ (by rw [hlen]; omega)] at hlast
  have hsucc : g.nodes.length - 1 + 1 = g.nodes.length := by omega
  simp only [ite_self, List.foldl_nil, hsucc, if_true] at hlast
  refine ⟨s, { g.nodes[g.nodes.length - 1] with dEdf := ops.scalar ops.one }, hrun, ?_, rfl⟩
  rw [List.getLast?_eq_getElem?, hlen]
  exact hlast

/-- C1. Sum law of `Hypergraph::backward`: on a well-formed graph with at least one node,
`forward()` followed by `backward()` runs to the end, and every live node `j` other than
the last has `dEdf[j]` equal to the sum, accumulated onto the zero matrix shaped like
`f[j]`, of `backward(tail values, f[i], dEdf[i], k)` of the producing edge of `i` over
all pairs (node `i`, tail position `k`) whose tail is `j`, with `f` and `dEdf` read in the
final graph; every such pair contributes, whether the pairs come from different edges or
from one edge. The flags are those of the liveness pass, which `forward()` does not
change. -/
theorem backward_sum_law {R M : Type} (ops : MatrixOps R M) (g : Hypergraph M)
    (hwf : WellFormed g) (hne : 0 < g.nodes.length) :
    ∃ flags s, liveness g = Except.ok flags ∧ forwardBackward ops g = Except.ok s ∧
      ∀ (j : Nat) (nd : Node M), j + 1 ≠ g.nodes.length → flags[j]? = some true →
        s.g.nodes[j]? = some nd →
        nd.dEdf = (contributions s.g j).foldl ops.add
          (ops.Zero (ops.rows nd.f) (ops.cols nd.f)) := by
  obtain ⟨s₁, last, hfw, inv, _⟩ := forward_spec ops g hwf hne
  have hwf₁ := inv.wellFormed hwf
  have hne₁ : 0 < s₁.g.nodes.length := by rw [inv.len]; exact hne
  obtain ⟨flags, s, hlive, _, hrun, _, hlen, hnodes, _⟩ :=
    backwardWith_spec ops true s₁.g hwf₁ hne₁
  refine ⟨flags, s, by rw [← liveness_congr g s₁.g inv.sameShape]; exact hlive, ?_, ?_⟩
  · simp only [forwardBackward, hfw]
    exact hrun
  · intro j nd hj hfl hnd
    have hjlt : j < s₁.g.nodes.length := by
      rw [← hlen]; exact (List.getElem?_eq_some.mp hnd).1
    have hjg : j < g.nodes.length := by rw [← inv.len]; exact hjlt
    have h₁ := hnodes j _ (List.getElem?_eq_getElem hjlt)
    rw [hnd] at h₁
    have hrec : receives true flags j = true := by simp [receives, hfl]
    have hj' : ¬ (j + 1 = s₁.g.nodes.length) := by rw [inv.len]; exact hj
    obtain ⟨_, e, _, _, he⟩ := hwf.node_edge hjg
    have hzero := (inv.done j _ e hjg (List.getElem?_eq_getElem hjlt) he).2
    rw [Option.some.inj h₁]
    simp only [hrec, if_true, hj', if_false]
    rw [← hzero]

/-- C6. On a well-formed graph with at least one node, `forward()` followed by `backward()`
runs to the end and leaves in `dEdf` of the last node the 1x1 matrix holding 1; and no
`backward` call of the sweep is made for a tail that is the last node, so nothing is added
to the seed. -/
theorem backward_seed_stays {R M : Type} (ops : MatrixOps R M) (g : Hypergraph M)
    (hwf : WellFormed g) (hne : 0 < g.nodes.length) :
    ∃ s last, forwardBackward ops g = Except.ok s ∧ s.g.nodes.getLast? = some last ∧
      last.dEdf = ops.scalar ops.one ∧
      ∀ ei ti, Call.backward ei ti ∈ s.calls →
        ∃ e t, g.edges[ei]? = some e ∧ e.tail[ti]? = some t ∧ t + 1 < g.nodes.length := by
  obtain ⟨s₁, _, hfw, inv, _⟩ := forward_spec ops g hwf hne
  have hwf₁ := inv.wellFormed hwf
  have hne₁ : 0 < s₁.g.nodes.length := by rw [inv.len]; exact hne
  obtain ⟨s, last, hrun, hlast, hone⟩ := backwardWith_last ops true s₁.g hwf₁ hne₁
  obtain ⟨flags, s', _, _, hrun', _, _, _, hcalls⟩ := backwardWith_spec ops true s₁.g hwf₁ hne₁
  have hs : s' = s := by
    rw [hrun] at hrun'
    exact (Except.ok.inj hrun').symm
  subst hs
  refine ⟨s', last, ?_, hlast, hone, fun ei ti hmem => ?_⟩
  · simp only [forwardBackward, hfw]
    exact hrun
  · rw [hcalls] at hmem
    obtain ⟨e, t, he, ht, _, hlt⟩ := mem_sweepCalls true flags s₁.g hwf₁ ei ti hmem
    rw [inv.edges] at he
    rw [inv.len] at hlt
    exact ⟨e, t, he, ht, hlt⟩

/-! ## The liveness test as an optimisation -/

theorem edgeContributions_not_tail {M : Type} (g : Hypergraph M) (j i : Nat) (nd : Node M)
    (e : Edge M) (hnd : g.nodes[i]? = some nd) (he : g.edges[nd.in_edge]? = some e)
    (hj : j ∉ e.tail) : edgeContributions g j i = [] := by
  simp only [edgeContributions, hnd, he]
  exact posContribs_not_mem _ _ _ _ _ _ _ hj

/-- C4. The liveness test of `Hypergraph::backward` is a pure optimisation on live nodes:
on a well-formed graph with at least one node (whatever `f` and `dEdf` hold, so in
particular after `forward()`), `backward()` as written and the same sweep without the
`needs_derivative` test both run to the end and leave the same `dEdf` in every node that
the liveness pass marks live. -/
theorem liveness_test_is_optimisation {R M : Type} (ops : MatrixOps R M) (g : Hypergraph M)
    (hwf : WellFormed g) (hne : 0 < g.nodes.length) :
    ∃ flags s s', liveness g = Except.ok flags ∧ backward ops g = Except.ok s ∧
      backwardWith ops false g = Except.ok s' ∧
      ∀ j : Nat, flags[j]? = some true →
        ∃ nd nd', s.g.nodes[j]? = some nd ∧ s'.g.nodes[j]? = some nd' ∧
          nd.dEdf = nd'.dEdf := by
  obtain ⟨flags, s, hlive, linv, hrun, hed, hlen, hnodes, _⟩ :=
    backwardWith_spec ops true g hwf hne
  obtain ⟨flags', s', hlive', _, hrun', hed', hlen', hnodes', _⟩ :=
    backwardWith_spec ops false g hwf hne
  have hfl : flags' = flags := by
    rw [hlive] at hlive'
    exact (Except.ok.inj hlive').symm
  subst hfl
  have hf : ∀ t : Nat, (s.g.nodes[t]?).map Node.f = (s'.g.nodes[t]?).map Node.f := fun t => by
    cases ht : g.nodes[t]? with
    | none =>
      have hle : g.nodes.length ≤ t := List.getElem?_eq_none_iff.mp ht
      rw [List.getElem?_eq_none (by rw [hlen]; exact hle),
        List.getElem?_eq_none (by rw [hlen']; exact hle)]
    | some nd₀ => rw [hnodes t nd₀ ht, hnodes' t nd₀ ht]; rfl
  have key : ∀ (m j : Nat), g.nodes.length - j ≤ m → flags'[j]? = some true →
      s.g.nodes[j]? = s'.g.nodes[j]? := by
    intro m
    induction m with
    | zero =>
      intro j hm hj
      have : j < flags'.length := (List.getElem?_eq_some.mp hj).1
      rw [linv.len] at this
      omega
    | succ m ih =>
      intro j hm hj
      have hjlt : j < g.nodes.length := by
        rw [← linv.len]; exact (List.getElem?_eq_some.mp hj).1
      have hnj := List.getElem?_eq_getElem hjlt
      have hcontr : contributions s.g j = contributions s'.g j := by
        unfold contributions
        rw [hlen, hlen']
        congr 1
        apply List.map_congr_left
        intro i hi
        have hilt : i < g.nodes.length := List.mem_range.mp (List.mem_reverse.mp hi)
        obtain ⟨nd, e, hnd, hin, he⟩ := hwf.node_edge hilt
        by_cases hmem : j ∈ e.tail
        · have hji : j < i := hwf.tail_lt he hmem
          have hilive := linv.live_of_tail hwf he hmem hj
          exact (edgeContributions_congr s.g s'.g j i (hed'.trans hed.symm)
            (fun t => (hf t).symm) (ih i (by omega) hilive).symm).symm
        · rw [edgeContributions_not_tail s.g j i _ e (hnodes i nd hnd)
              (by rw [hed, hin]; exact he) hmem,
            edgeContributions_not_tail s'.g j i _ e (hnodes' i nd hnd)
              (by rw [hed', hin]; exact he) hmem]
      rw [hnodes j _ hnj, hnodes' j _ hnj]
      have h₁ : receives true flags' j = true := by simp [receives, hj]
      have h₂ : receives false flags' j = true := by simp [receives]
      simp only [h₁, h₂, if_true, hcontr]
  refine ⟨flags', s, s', hlive, hrun, hrun', fun j hj => ?_⟩
  have hjlt : j < g.nodes.length := by
    rw [← linv.len]; exact (List.getElem?_eq_some.mp hj).1
  have hs : j < s.g.nodes.length := by rw [hlen]; exact hjlt
  have heq := key (g.nodes.length - j) j (Nat.le_refl _) hj
  refine ⟨s.g.nodes[j], s.g.nodes[j], List.getElem?_eq_getElem hs, ?_, rfl⟩
  rw [← heq]
  exact List.getElem?_eq_getElem hs

/-! ## Construction -/

/-- Every construction call appends one node and one tail-free edge. -/
theorem Construct.run_eq_append {R M P L : Type} (ops : MatrixOps R M)
    (cls : EdgeClasses M P L) (g : Hypergraph M) (c : Construct R M P L) :
    ∃ (e : Edge M) (name : String), e.tail = [] ∧ c.run ops cls g = g.append ops e name := by
  cases c with
  | add_input m name => exact ⟨_, name, rfl, rfl⟩
  | add_scalar_input s name => exact ⟨_, name, rfl, rfl⟩
  | add_parameter p name => exact ⟨_, name, rfl, rfl⟩
  | add_lookup_parameter p name => exact ⟨_, name, rfl, rfl⟩

theorem build_indices {R M P L : Type} (ops : MatrixOps R M) (cls : EdgeClasses M P L)
    (cs : List (Construct R M P L)) (g : Hypergraph M) :
    (build ops cls cs g).1 = List.range' g.nodes.length cs.length := by
  induction cs generalizing g with
  | nil => rfl
  | cons c rest ih =>
    obtain ⟨e, name, _, hrun⟩ := c.run_eq_append ops cls g
    simp only [build, List.length_cons, List.range'_succ]
    rw [ih, hrun]
    simp [Hypergraph.append]

/-- C7. Each of `add_input`, `add_scalar_input` and the two `add_parameter` returns the
node count the graph had before the call and increases the node count by exactly one; and
a sequence of such calls on the empty graph returns the indices `0, 1, ..., n - 1` in call
order, so the `k`-th call returns `k`. -/
theorem construction_indices {R M P L : Type} (ops : MatrixOps R M)
    (cls : EdgeClasses M P L) :
    (∀ (g : Hypergraph M) (c : Construct R M P L),
      (c.run ops cls g).1 = g.nodes.length ∧
        (c.run ops cls g).2.nodes.length = g.nodes.length + 1) ∧
    (∀ cs : List (Construct R M P L),
      (build ops cls cs Hypergraph.empty).1 = List.range cs.length ∧
        ∀ k, k < cs.length → (build ops cls cs Hypergraph.empty).1[k]? = some k) := by
  refine ⟨fun g c => ?_, fun cs => ?_⟩
  · obtain ⟨e, name, _, hrun⟩ := c.run_eq_append ops cls g
    rw [hrun]
    simp [Hypergraph.append]
  · have h : (build ops cls cs Hypergraph.empty).1 = List.range cs.length := by
      rw [build_indices, List.range_eq_range']
      rfl
    refine ⟨h, fun k hk => ?_⟩
    rw [h]
    exact List.getElem?_range hk

theorem Structural.append {R M : Type} (ops : MatrixOps R M) {g : Hypergraph M}
    (h : Structural g) (e : Edge M) (he : e.tail = []) (name : String) :
    Structural (g.append ops e name).2 := by
  obtain ⟨hcount, hin, hhead, htails⟩ := h
  unfold EdgePerNode at hcount
  refine ⟨?_, ?_, ?_, ?_⟩
  · simp [EdgePerNode, Hypergraph.append, hcount]
  · intro p hp
    have hget := List.mem_enum_iff_getElem?.mp hp
    simp only [Hypergraph.append, List.getElem?_append] at hget
    by_cases hlt : p.1 < g.nodes.length
    · rw [if_pos hlt] at hget
      exact hin p (List.mem_enum_iff_getElem?.mpr hget)
    · rw [if_neg hlt] at hget
      have hidx : p.1 - g.nodes.length = 0 := by
        by_contra hne
        rw [List.getElem?_eq_none (by simp; omega)] at hget
        cases hget
      rw [hidx] at hget
      simp only [List.getElem?_cons_zero, Option.some.injEq] at hget
      rw [← hget]
      simp only [Node.new]
      omega
  · intro p hp
    have hget := List.mem_enum_iff_getElem?.mp hp
    simp only [Hypergraph.append, List.getElem?_append] at hget
    by_cases hlt : p.1 < g.edges.length
    · rw [if_pos hlt] at hget
      exact hhead p (List.mem_enum_iff_getElem?.mpr hget)
    · rw [if_neg hlt] at hget
      have hidx : p.1 - g.edges.length = 0 := by
        by_contra hne
        rw [List.getElem?_eq_none (by simp; omega)] at hget
        cases hget
      rw [hidx] at hget
      simp only [List.getElem?_cons_zero, Option.some.injEq] at hget
      rw [← hget]
      simp only []
      omega
  · intro p hp t ht
    have hget := List.mem_enum_iff_getElem?.mp hp
    simp only [Hypergraph.append, List.getElem?_append] at hget
    by_cases hlt : p.1 < g.edges.length
    · rw [if_pos hlt] at hget
      exact htails p (List.mem_enum_iff_getElem?.mpr hget) t ht
    · rw [if_neg hlt] at hget
      have hidx : p.1 - g.edges.length = 0 := by
        by_contra hne
        rw [List.getElem?_eq_none (by simp; omega)] at hget
        cases hget
      rw [hidx] at hget
      simp only [List.getElem?_cons_zero, Option.some.injEq] at hget
      rw [← hget] at ht
      simp only [he] at ht
      cases ht

theorem Structural.build {R M P L : Type} (ops : MatrixOps R M) (cls : EdgeClasses M P L)
    (cs : List (Construct R M P L)) (g : Hypergraph M) (h : Structural g) :
    Structural (build ops cls cs g).2 := by
  induction cs generalizing g with
  | nil => exact h
  | cons c rest ih =>
    obtain ⟨e, name, he, hrun⟩ := c.run_eq_append ops cls g
    simp only [cnn.build]
    apply ih
    rw [hrun]
    exact h.append ops e he name

/-- C8. The structural invariant of construction (edge count = node count; node `i` has
`in_edge = i`; edge `i` has `head_node = i`; every tail of edge `i` is below `i`) holds
for the empty graph, is preserved by each of `add_input`, `add_scalar_input` and the two
`add_parameter`, and so holds after every sequence of these calls on the empty graph. -/
theorem construction_invariant {R M P L : Type} (ops : MatrixOps R M)
    (cls : EdgeClasses M P L) :
    Structural (Hypergraph.empty : Hypergraph M) ∧
    (∀ (g : Hypergraph M) (c : Construct R M P L),
      Structural g → Structural (c.run ops cls g).2) ∧
    (∀ cs : List (Construct R M P L), Structural (build ops cls cs Hypergraph.empty).2) := by
  have hempty : Structural (Hypergraph.empty : Hypergraph M) := by
    refine ⟨rfl, ?_, ?_, ?_⟩ <;> intro p hp <;> cases hp
  refine ⟨hempty, fun g c h => ?_, fun cs => Structural.build ops cls cs _ hempty⟩
  obtain ⟨e, name, he, hrun⟩ := c.run_eq_append ops cls g
  rw [hrun]
  exact h.append ops e he name

/-! ## The example scenario -/

theorem Example.forward_graph :
    forward Example.qops Example.graph =
      Except.ok (Example.qops.scalar 18,
        { g := Example.evaluated,
          calls := [Call.forward 0, Call.forward 1, Call.forward 2] }) := by
  simp [forward, loop, forwardStep, gather, gatherLoop, Example.graph, Example.evaluated,
    List.range, List.range.loop, Node.new, Example.inputX, Example.square, Example.scaleByP,
    Example.qops, Example.arg0, Example.QMat.zipWith, Example.QMat.scale]
  norm_num

theorem Example.liveness_evaluated :
    liveness Example.evaluated = Except.ok [false, false, true] := by
  simp [liveness, loop, livenessStep, orTails, Example.evaluated, List.range,
    List.range.loop, Example.inputX, Example.square, Example.scaleByP]

theorem Example.backward_evaluated :
    backward Example.qops Example.evaluated =
      Except.ok { g := Example.differentiated, calls := [] } := by
  simp only [backward, backwardWith, Example.liveness_evaluated]
  simp [seed, loop, backwardStep, backwardTails, gather, gatherLoop, Example.evaluated,
    Example.differentiated, List.range, List.range.loop, Example.inputX, Example.square,
    Example.scaleByP, Example.qops]

/-- C2, as the specification states it, fails on the code: `forward()` then `backward()`
on the example graph does not leave the gradients 12, 2 and 1 at nodes 0, 1 and 2. -/
theorem example_scenario_refuted :
    ¬ ∃ s₁ s, forward Example.qops Example.graph = Except.ok (Example.qops.scalar 18, s₁) ∧
      backward Example.qops s₁.g = Except.ok s ∧
      s.g.nodes.map Node.dEdf =
        [Example.qops.scalar 12, Example.qops.scalar 2, Example.qops.scalar 1] := by
  rintro ⟨s₁, s, hfw, hbw, hd⟩
  rw [Example.forward_graph] at hfw
  cases hfw
  rw [Example.backward_evaluated] at hbw
  cases hbw
  simp [Example.differentiated, Example.qops] at hd

/-- C2, amended. On the example graph (input `x = 3`, its square, the square scaled by the
parameter `p = 2`) `forward()` returns 18; the liveness pass marks nodes 0 and 1 dead,
since neither has a parameter-owning ancestor, and node 2 live; `backward()` then leaves
`dEdf = 1` at node 2 and the 1x1 zero matrix at nodes 1 and 0, making no `backward` call. -/
theorem example_scenario :
    ∃ s₁ s, forward Example.qops Example.graph = Except.ok (Example.qops.scalar 18, s₁) ∧
      liveness s₁.g = Except.ok [false, false, true] ∧
      backward Example.qops s₁.g = Except.ok s ∧
      s.g.nodes.map Node.dEdf =
        [Example.qops.Zero 1 1, Example.qops.Zero 1 1, Example.qops.scalar 1] ∧
      s.calls = [] :=
  ⟨_, _, Example.forward_graph, Example.liveness_evaluated, Example.backward_evaluated,
    rfl, rfl⟩

/-! ## Traversals without their preconditions -/

/-- C9, as the specification states it, fails on the code: on the empty graph `forward()`
reports no error; it reads `nodes.back()` of the empty node vector. -/
theorem forward_empty_reads_back :
    forward Example.qops (Hypergraph.empty : Hypergraph Example.QMat) =
      Except.error Fault.backOfEmpty := rfl

/-- C9, amended. On a graph with zero nodes `forward()` evaluates no edge and then reads
`nodes.back()` of the empty node vector, an access the source leaves undefined; there is
no check and no error is reported. -/
theorem forward_no_nodes {R M : Type} (ops : MatrixOps R M) (g : Hypergraph M)
    (h : g.nodes = []) : forward ops g = Except.error Fault.backOfEmpty := by
  simp [forward, h, loop]

theorem forward_no_nodes_witness :
    Example.nodeless.nodes = [] ∧
      forward Example.qops Example.nodeless = Except.error Fault.backOfEmpty :=
  ⟨rfl, forward_no_nodes Example.qops Example.nodeless rfl⟩

/-- C10, as the specification states it, fails on the code: on the example graph, on
which `forward()` has not been run, `backward()` reports no error and changes a gradient. -/
theorem backward_unevaluated_runs :
    ∃ s, backward Example.qops Example.graph = Except.ok s ∧
      s.g.nodes.map Node.dEdf ≠ Example.graph.nodes.map Node.dEdf := by
  refine ⟨{ g := { Example.graph with
                    nodes := [Node.new Example.qops 0 "x", Node.new Example.qops 1 "sq",
                      { Node.new Example.qops 2 "y" with dEdf := Example.qops.scalar 1 }] },
            calls := [] }, ?_, ?_⟩
  · simp [backward, backwardWith, liveness, livenessStep, orTails, seed, loop, backwardStep,
      backwardTails, gather, gatherLoop, Example.graph, List.range, List.range.loop,
      Example.inputX, Example.square, Example.scaleByP, Node.new, Example.qops]
  · simp [Example.graph, Node.new, Example.qops]

/-- C10, amended. `backward()` does not check that `forward()` has run and reports no
error. On a graph with zero nodes it reads `nodes.back()` of the empty node vector, an
access the source leaves undefined. On a well-formed graph with at least one node it runs
to the end whatever `f` and `dEdf` hold, and leaves the 1x1 matrix holding 1 in `dEdf` of
the last node. -/
theorem backward_unchecked {R M : Type} (ops : MatrixOps R M) (g : Hypergraph M) :
    (g.nodes = [] → backward ops g = Except.error Fault.backOfEmpty) ∧
    (WellFormed g → 0 < g.nodes.length →
      ∃ s last, backward ops g = Except.ok s ∧ s.g.nodes.getLast? = some last ∧
        last.dEdf = ops.scalar ops.one) := by
  refine ⟨fun h => ?_, fun hwf hne => backwardWith_last ops true g hwf hne⟩
  simp [backward, backwardWith, liveness, seed, h, loop]

theorem backward_unchecked_witness :
    backward Example.qops Example.nodeless = Except.error Fault.backOfEmpty ∧
      ∃ s last, backward Example.qops Example.graph = Except.ok s ∧
        s.g.nodes.getLast? = some last ∧ last.dEdf = Example.qops.scalar 1 :=
  ⟨(backward_unchecked Example.qops Example.nodeless).1 rfl,
    (backward_unchecked Example.qops Example.graph).2 (by decide) (by decide)⟩

/-! ## The theorems at concrete graphs -/

/-- On the graph `w`, `w * w`, `w + w * w + w` with `w = 3` the gradient of node 0 collects
the two contributions of the sum and the contribution of the square: 1 + 1 + 6. -/
theorem Example.forwardBackward_diamond :
    ∃ s, forwardBackward Example.qops Example.diamond = Except.ok s ∧
      s.g.nodes.map Node.f =
        [Example.qops.scalar 3, Example.qops.scalar 9, Example.qops.scalar 15] ∧
      s.g.nodes.map Node.dEdf =
        [Example.qops.scalar 8, Example.qops.scalar 1, Example.qops.scalar 1] := by
  simp [forwardBackward, forward, backward, backwardWith, liveness, livenessStep, orTails,
    seed, loop, forwardStep, backwardStep, backwardTails, gather, gatherLoop,
    Example.diamond, List.range, List.range.loop, Node.new, Example.paramW, Example.square,
    Example.addThree, Example.qops, Example.arg0, Example.QMat.zipWith, Example.QMat.scale]
  norm_num

theorem backward_sum_law_witness :
    WellFormed Example.diamond ∧ 0 < Example.diamond.nodes.length ∧
      (∃ flags s, liveness Example.diamond = Except.ok flags ∧
        forwardBackward Example.qops Example.diamond = Except.ok s ∧
        ∀ (j : Nat) (nd : Node Example.QMat), j + 1 ≠ Example.diamond.nodes.length →
          flags[j]? = some true → s.g.nodes[j]? = some nd →
          nd.dEdf = (contributions s.g j).foldl Example.qops.add
            (Example.qops.Zero (Example.qops.rows nd.f) (Example.qops.cols nd.f))) ∧
      ∃ s, forwardBackward Example.qops Example.diamond = Except.ok s ∧
        s.g.nodes.map Node.f =
          [Example.qops.scalar 3, Example.qops.scalar 9, Example.qops.scalar 15] ∧
        s.g.nodes.map Node.dEdf =
          [Example.qops.scalar 8, Example.qops.scalar 1, Example.qops.scalar 1] :=
  ⟨by decide, by decide,
    backward_sum_law Example.qops Example.diamond (by decide) (by decide),
    Example.forwardBackward_diamond⟩

theorem forward_postcondition_witness :
    WellFormed Example.graph ∧ 0 < Example.graph.nodes.length ∧
      ∃ v s, forward Example.qops Example.graph = Except.ok (v, s) ∧
        s.g.edges = Example.graph.edges ∧ s.g.nodes.length = Example.graph.nodes.length ∧
        (∀ (i : Nat) (nd : Node Example.QMat), s.g.nodes[i]? = some nd →
          ∃ e : Edge Example.QMat, nd.in_edge = i ∧ s.g.edges[i]? = some e ∧
            nd.f = e.forward (e.tail.map (fun t => (s.g.nodes[t]?).map Node.f)) ∧
            nd.dEdf = Example.qops.Zero (Example.qops.rows nd.f) (Example.qops.cols nd.f)) ∧
        s.calls = (List.range Example.graph.nodes.length).map Call.forward ∧
        (s.g.nodes.getLast?).map Node.f = some v :=
  ⟨by decide, by decide,
    forward_postcondition Example.qops Example.graph (by decide) (by decide)⟩

theorem liveness_test_is_optimisation_witness :
    WellFormed Example.evaluated ∧ 0 < Example.evaluated.nodes.length ∧
      ∃ flags s s', liveness Example.evaluated = Except.ok flags ∧
        backward Example.qops Example.evaluated = Except.ok s ∧
        backwardWith Example.qops false Example.evaluated = Except.ok s' ∧
        ∀ j : Nat, flags[j]? = some true →
          ∃ nd nd', s.g.nodes[j]? = some nd ∧ s'.g.nodes[j]? = some nd' ∧
            nd.dEdf = nd'.dEdf :=
  ⟨by decide, by decide,
    liveness_test_is_optimisation Example.qops Example.evaluated (by decide) (by decide)⟩

theorem liveness_characterisation_witness :
    WellFormed Example.diamond ∧
      ∃ flags, liveness Example.diamond = Except.ok flags ∧
        flags.length = Example.diamond.nodes.length ∧
        (∀ i, flags[i]? = some true ↔
          ∃ a, Reaches Example.diamond a i ∧ OwnsParameters Example.diamond a) ∧
        (∀ i, i < Example.diamond.nodes.length →
          (∀ a, Reaches Example.diamond a i → ¬ OwnsParameters Example.diamond a) →
          flags[i]? = some false) ∧
        (∀ g' : Hypergraph Example.QMat, SameShape Example.diamond g' →
          liveness g' = Except.ok flags) :=
  ⟨by decide, liveness_characterisation Example.diamond (by decide)⟩

theorem backward_seed_stays_witness :
    WellFormed Example.diamond ∧ 0 < Example.diamond.nodes.length ∧
      ∃ s last, forwardBackward Example.qops Example.diamond = Except.ok s ∧
        s.g.nodes.getLast? = some last ∧ last.dEdf = Example.qops.scalar 1 ∧
        ∀ ei ti, Call.backward ei ti ∈ s.calls →
          ∃ e t, Example.diamond.edges[ei]? = some e ∧ e.tail[ti]? = some t ∧
            t + 1 < Example.diamond.nodes.length :=
  ⟨by decide, by decide,
    backward_seed_stays Example.qops Example.diamond (by decide) (by decide)⟩

theorem construction_invariant_witness :
    Structural Example.graph ∧
      Structural ((Construct.add_parameter (R := ℚ) (L := ℚ) (Example.qops.scalar 2)
        "p").run Example.qops Example.qclasses Example.graph).2 :=
  ⟨by decide,
    (construction_invariant Example.qops Example.qclasses).2.1 Example.graph _ (by decide)⟩

/-! ## Running `forward` again -/

/-- The graph that `forward` leaves depends only on the edges and on the producer and name
of every node: two runs on graphs that agree on these end in the same state. -/
theorem ForwardInv.unique {R M : Type} {ops : MatrixOps R M} {g g' : Hypergraph M}
    {s s' : Trav M} (hwf : WellFormed g) (inv : ForwardInv ops g g.nodes.length s)
    (inv' : ForwardInv ops g' g'.nodes.length s') (hedges : g'.edges = g.edges)
    (hlen : g'.nodes.length = g.nodes.length)
    (hskel : ∀ (i : Nat) (nd nd' : Node M), g.nodes[i]? = some nd → g'.nodes[i]? = some nd' →
      nd'.in_edge = nd.in_edge ∧ nd'.name = nd.name) :
    s' = s := by
  have hnodes : ∀ i : Nat, s'.g.nodes[i]? = s.g.nodes[i]? := by
    intro i
    induction i using Nat.strong_induction_on with
    | _ i ih =>
      by_cases hi : i < g.nodes.length
      · obtain ⟨nd₀, e, hnd₀, _, he⟩ := hwf.node_edge hi
        have hi' : i < g'.nodes.length := by rw [hlen]; exact hi
        have hnd₀' := List.getElem?_eq_getElem hi'
        obtain ⟨nd, hnd, hin, hname, _⟩ := inv.frame i nd₀ hnd₀
        obtain ⟨nd', hnd', hin', hname', _⟩ := inv'.frame i _ hnd₀'
        obtain ⟨hsin, hsname⟩ := hskel i nd₀ _ hnd₀ hnd₀'
        have hd := inv.done i nd e hi hnd he
        have hd' := inv'.done i nd' e hi' hnd' (by rw [hedges]; exact he)
        have htv : tailValues s'.g.nodes e = tailValues s.g.nodes e :=
          tailValues_congr s.g.nodes s'.g.nodes e
            (fun t ht => by rw [ih t (hwf.tail_lt he ht)])
        rw [htv] at hd'
        rw [hnd, hnd']
        have hf : nd'.f = nd.f := by rw [hd'.1, hd.1]
        have hdd : nd'.dEdf = nd.dEdf := by rw [hd'.2, hd.2, hf]
        have hie : nd'.in_edge = nd.in_edge := by rw [hin', hsin, hin]
        have hne : nd'.name = nd.name := by rw [hname', hsname, hname]
        cases nd
        cases nd'
        simp only [] at hf hdd hie hne
        rw [hf, hdd, hie, hne]
      · rw [List.getElem?_eq_none (by rw [inv'.len, hlen]; omega),
          List.getElem?_eq_none (by rw [inv.len]; omega)]
  have hg : s'.g = s.g := by
    have h₁ : s'.g.nodes = s.g.nodes := List.ext_getElem? hnodes
    have h₂ : s'.g.edges = s.g.edges := by rw [inv'.edges, hedges, inv.edges]
    cases hs : s.g
    cases hs' : s'.g
    rw [hs, hs'] at h₁ h₂
    simp only [] at h₁ h₂
    rw [h₁, h₂]
  have hc : s'.calls = s.calls := by rw [inv'.calls, inv.calls, hlen]
  cases s
  cases s'
  simp only [] at hg hc
  rw [hg, hc]

/-- C11. The function `forward()` is idempotent on well-formed graphs: on a well-formed
graph with at least one node, whatever `f` and `dEdf` hold at the start, a first call
returns a value and a second call right after it returns the same value and leaves the
same graph, so the same `f` and `dEdf` at every node, as the first call did. -/
theorem forward_idempotent {R M : Type} (ops : MatrixOps R M) (g : Hypergraph M)
    (hwf : WellFormed g) (hne : 0 < g.nodes.length) :
    ∃ v s, forward ops g = Except.ok (v, s) ∧ forward ops s.g = Except.ok (v, s) := by
  obtain ⟨s, last, hfw, inv, hlast⟩ := forward_spec ops g hwf hne
  obtain ⟨s₂, last₂, hfw₂, inv₂, hlast₂⟩ := forward_spec ops s.g (inv.wellFormed hwf)
    (by rw [inv.len]; exact hne)
  have hs : s₂ = s := ForwardInv.unique hwf inv inv₂ inv.edges inv.len
    (fun i nd nd' hnd hnd' => by
      obtain ⟨n, hn, hin, hname, _⟩ := inv.frame i nd hnd
      rw [hnd'] at hn
      cases hn
      exact ⟨hin, hname⟩)
  subst hs
  rw [hlast] at hlast₂
  cases hlast₂
  exact ⟨last.f, s₂, hfw, hfw₂⟩

theorem forward_idempotent_witness :
    WellFormed Example.diamond ∧ 0 < Example.diamond.nodes.length ∧
      ∃ v s, forward Example.qops Example.diamond = Except.ok (v, s) ∧
        forward Example.qops s.g = Except.ok (v, s) :=
  ⟨by decide, by decide, forward_idempotent Example.qops Example.diamond (by decide) (by decide)⟩

/-- C17. The composite `forward()` then `backward()` is idempotent: on a well-formed graph
with at least one node, whatever `f` and `dEdf` hold at the start, the composite runs to
the end, and run again on the graph it left it ends in the same state, so with the same
`f` and `dEdf` at every node: the second `forward()` recomputes every `f` and resets every
`dEdf` before gradients are accumulated again. -/
theorem forwardBackward_idempotent {R M : Type} (ops : MatrixOps R M) (g : Hypergraph M)
    (hwf : WellFormed g) (hne : 0 < g.nodes.length) :
    ∃ s, forwardBackward ops g = Except.ok s ∧ forwardBackward ops s.g = Except.ok s := by
  obtain ⟨s₁, last, hfw, inv, _⟩ := forward_spec ops g hwf hne
  have hwf₁ := inv.wellFormed hwf
  have hne₁ : 0 < s₁.g.nodes.length := by rw [inv.len]; exact hne
  obtain ⟨_, s, _, _, hrun, hed, hlen, hnodes, _⟩ := backwardWith_spec ops true s₁.g hwf₁ hne₁
  have hfb : forwardBackward ops g = Except.ok s := by
    simp only [forwardBackward, hfw]
    exact hrun
  have hskel : ∀ (i : Nat) (nd nd' : Node M), g.nodes[i]? = some nd →
      s.g.nodes[i]? = some nd' → nd'.in_edge = nd.in_edge ∧ nd'.name = nd.name := by
    intro i nd nd' hnd hnd'
    obtain ⟨n₁, hn₁, hin, hname, _⟩ := inv.frame i nd hnd
    rw [hnodes i n₁ hn₁] at hnd'
    cases hnd'
    exact ⟨hin, hname⟩
  have hwfs : WellFormed s.g := hwf.transfer (hed.trans inv.edges) (hlen.trans inv.len)
    (fun i nd' hi => by
      have hi' : i < g.nodes.length := by
        rw [← inv.len, ← hlen]; exact (List.getElem?_eq_some.mp hi).1
      exact ⟨_, List.getElem?_eq_getElem hi',
        (hskel i _ nd' (List.getElem?_eq_getElem hi') hi).1⟩)
  obtain ⟨s₁', last', hfw', inv', _⟩ := forward_spec ops s.g hwfs
    (by rw [hlen]; exact hne₁)
  have hs : s₁' = s₁ := ForwardInv.unique hwf inv inv' (hed.trans inv.edges)
    (hlen.trans inv.len) hskel
  subst hs
  refine ⟨s, hfb, ?_⟩
  simp only [forwardBackward, hfw']
  exact hrun

theorem forwardBackward_idempotent_witness :
    WellFormed Example.diamond ∧ 0 < Example.diamond.nodes.length ∧
      ∃ s, forwardBackward Example.qops Example.diamond = Except.ok s ∧
        forwardBackward Example.qops s.g = Except.ok s :=
  ⟨by decide, by decide,
    forwardBackward_idempotent Example.qops Example.diamond (by decide) (by decide)⟩

/-! ## What the traversals leave alone -/

/-- C16. On a well-formed graph with at least one node `backward()` runs to the end and
changes nothing but gradients: the edges (so their count, tails and heads) and the
producer and value of every node (so the node count) are as before. `forward()` runs to
the end and changes nothing but values and gradients: the edges and the producer of every
node are as before. -/
theorem traversal_frame {R M : Type} (ops : MatrixOps R M) (g : Hypergraph M)
    (hwf : WellFormed g) (hne : 0 < g.nodes.length) :
    (∃ s, backward ops g = Except.ok s ∧ s.g.edges = g.edges ∧
      s.g.nodes.length = g.nodes.length ∧
      s.g.nodes.map Node.in_edge = g.nodes.map Node.in_edge ∧
      s.g.nodes.map Node.f = g.nodes.map Node.f) ∧
    (∃ v s, forward ops g = Except.ok (v, s) ∧ s.g.edges = g.edges ∧
      s.g.nodes.length = g.nodes.length ∧
      s.g.nodes.map Node.in_edge = g.nodes.map Node.in_edge) := by
  constructor
  · obtain ⟨_, s, _, _, hrun, hed, hlen, hnodes, _⟩ := backwardWith_spec ops true g hwf hne
    have hpt : ∀ i : Nat, (s.g.nodes[i]?).map Node.in_edge = (g.nodes[i]?).map Node.in_edge ∧
        (s.g.nodes[i]?).map Node.f = (g.nodes[i]?).map Node.f := by
      intro i
      cases hi : g.nodes[i]? with
      | none =>
        rw [List.getElem?_eq_none (by rw [hlen]; exact List.getElem?_eq_none_iff.mp hi)]
        exact ⟨rfl, rfl⟩
      | some nd₀ =>
        rw [hnodes i nd₀ hi]
        exact ⟨rfl, rfl⟩
    refine ⟨s, hrun, hed, hlen, List.ext_getElem? (fun i => ?_), List.ext_getElem? (fun i => ?_)⟩
    · rw [List.getElem?_map, List.getElem?_map]
      exact (hpt i).1
    · rw [List.getElem?_map, List.getElem?_map]
      exact (hpt i).2
  · obtain ⟨s, last, hfw, inv, _⟩ := forward_spec ops g hwf hne
    exact ⟨last.f, s, hfw, inv.edges, inv.len, inv.sameShape.1⟩

theorem traversal_frame_witness :
    WellFormed Example.diamond ∧ 0 < Example.diamond.nodes.length ∧
      (∃ s, backward Example.qops Example.diamond = Except.ok s ∧
        s.g.edges = Example.diamond.edges ∧
        s.g.nodes.length = Example.diamond.nodes.length ∧
        s.g.nodes.map Node.in_edge = Example.diamond.nodes.map Node.in_edge ∧
        s.g.nodes.map Node.f = Example.diamond.nodes.map Node.f) ∧
      (∃ v s, forward Example.qops Example.diamond = Except.ok (v, s) ∧
        s.g.edges = Example.diamond.edges ∧
        s.g.nodes.length = Example.diamond.nodes.length ∧
        s.g.nodes.map Node.in_edge = Example.diamond.nodes.map Node.in_edge) :=
  ⟨by decide, by decide, traversal_frame Example.qops Example.diamond (by decide) (by decide)⟩

/-- C12. Index stability of construction: each of `add_input`, `add_scalar_input` and the
two `add_parameter` leaves the node list and the edge list as they were and appends one
node and one edge at their ends; so every node and every edge that existed before the
call is the same after it (same `in_edge`, name, `f`, `dEdf`; same `tail`, `head_node` and
operation), at the same index. -/
theorem construction_stable {R M P L : Type} (ops : MatrixOps R M) (cls : EdgeClasses M P L)
    (g : Hypergraph M) (c : Construct R M P L) :
    ∃ (nd : Node M) (e : Edge M),
      (c.run ops cls g).2.nodes = g.nodes ++ [nd] ∧
      (c.run ops cls g).2.edges = g.edges ++ [e] ∧
      (∀ i : Nat, i < g.nodes.length → (c.run ops cls g).2.nodes[i]? = g.nodes[i]?) ∧
      (∀ i : Nat, i < g.edges.length → (c.run ops cls g).2.edges[i]? = g.edges[i]?) := by
  obtain ⟨e, name, _, hrun⟩ := c.run_eq_append ops cls g
  rw [hrun]
  refine ⟨_, _, rfl, rfl, fun i hi => ?_, fun i hi => ?_⟩
  · simp only [Hypergraph.append]
    exact List.getElem?_append_left hi
  · simp only [Hypergraph.append]
    exact List.getElem?_append_left hi

/-! ## Traversal safety -/

/-- C15. Traversal safety: on a well-formed graph with at least one node (arity equal to
the number of tails included) `forward()`, `backward()` and one after the other run to the
end, that is without any out-of-range access; indeed every node's `in_edge` indexes an
existing edge, every tail index is below the node count (the length of `nodes` and of
`needs_derivative`), and every tail position is below the arity, the length of `xs`. -/
theorem traversal_safety {R M : Type} (ops : MatrixOps R M) (g : Hypergraph M)
    (hwf : WellFormed g) (hne : 0 < g.nodes.length) :
    (∃ v s, forward ops g = Except.ok (v, s)) ∧
    (∃ s, backward ops g = Except.ok s) ∧
    (∃ s, forwardBackward ops g = Except.ok s) ∧
    (∀ (i : Nat) (nd : Node M), g.nodes[i]? = some nd → nd.in_edge < g.edges.length) ∧
    (∀ e ∈ g.edges, ∀ t ∈ e.tail, t < g.nodes.length) ∧
    (∀ e ∈ g.edges, ∀ ti : Nat, ti < e.tail.length → ti < e.arity) := by
  obtain ⟨s₁, last, hfw, inv, _⟩ := forward_spec ops g hwf hne
  obtain ⟨_, s, _, _, hrun, _⟩ := backwardWith_spec ops true g hwf hne
  obtain ⟨_, s', _, _, hrun', _⟩ := backwardWith_spec ops true s₁.g (inv.wellFormed hwf)
    (by rw [inv.len]; exact hne)
  refine ⟨⟨_, _, hfw⟩, ⟨s, hrun⟩, ⟨s', ?_⟩, ?_, ?_, ?_⟩
  · simp only [forwardBackward, hfw]
    exact hrun'
  · intro i nd hnd
    rw [hwf.node_in_edge hnd, hwf.1]
    exact (List.getElem?_eq_some.mp hnd).1
  · intro e he t ht
    obtain ⟨i, hi⟩ := List.mem_iff_getElem?.mp he
    exact Nat.lt_trans (hwf.tail_lt hi ht) (hwf.edge_lt hi)
  · intro e he ti hti
    rw [hwf.2.2.2 e he]
    exact hti

theorem traversal_safety_witness :
    WellFormed Example.diamond ∧ 0 < Example.diamond.nodes.length ∧
      (∃ v s, forward Example.qops Example.diamond = Except.ok (v, s)) ∧
      (∃ s, backward Example.qops Example.diamond = Except.ok s) ∧
      (∃ s, forwardBackward Example.qops Example.diamond = Except.ok s) ∧
      (∀ (i : Nat) (nd : Node Example.QMat), Example.diamond.nodes[i]? = some nd →
        nd.in_edge < Example.diamond.edges.length) ∧
      (∀ e ∈ Example.diamond.edges, ∀ t ∈ e.tail, t < Example.diamond.nodes.length) ∧
      (∀ e ∈ Example.diamond.edges, ∀ ti : Nat, ti < e.tail.length → ti < e.arity) :=
  ⟨by decide, by decide, traversal_safety Example.qops Example.diamond (by decide) (by decide)⟩

/-! ## Dead tails -/

theorem receives_filter {flags : List Bool} {t : Nat} (h : receives true flags t = true) :
    flags[t]? = some true := by
  cases hf : flags[t]? with
  | none => simp [receives, hf] at h
  | some b =>
    simp [receives, hf] at h
    rw [h]

theorem not_receives_dead {flags : List Bool} {t : Nat} (h : flags[t]? = some false) :
    receives true flags t = false := by
  simp [receives, h]

/-- A node that no edge reads is owed nothing. -/
theorem contributions_no_consumer {M : Type} (g : Hypergraph M) (j : Nat)
    (h : ∀ (i : Nat) (e : Edge M), g.edges[i]? = some e → j ∉ e.tail) :
    contributions g j = [] := by
  unfold contributions
  rw [List.flatten_eq_nil_iff]
  intro l hl
  obtain ⟨i, _, rfl⟩ := List.mem_map.mp hl
  unfold edgeContributions
  cases g.nodes[i]? with
  | none => rfl
  | some nd =>
    simp only []
    cases he : g.edges[nd.in_edge]? with
    | none => rfl
    | some e => exact posContribs_not_mem _ _ _ _ _ _ _ (h _ e he)

/-- C13. Dead tails are skipped by `Hypergraph::backward`: on a well-formed graph with at
least one node `backward()` runs to the end; every `backward` call it makes is for a tail
position whose node is marked live; it changes `dEdf` of a node only if the node is the
last one (the seed) or is marked live and is a tail of some edge; and after `forward()`
then `backward()` every node marked dead, other than the last, still has `dEdf` equal to
the zero matrix shaped like its `f`. -/
theorem dead_tails_skipped {R M : Type} (ops : MatrixOps R M) (g : Hypergraph M)
    (hwf : WellFormed g) (hne : 0 < g.nodes.length) :
    ∃ flags s, liveness g = Except.ok flags ∧ backward ops g = Except.ok s ∧
      (∀ ei ti, Call.backward ei ti ∈ s.calls →
        ∃ e t, g.edges[ei]? = some e ∧ e.tail[ti]? = some t ∧ flags[t]? = some true) ∧
      (∀ (j : Nat) (nd₀ nd : Node M), g.nodes[j]? = some nd₀ → s.g.nodes[j]? = some nd →
        nd.dEdf ≠ nd₀.dEdf →
        j + 1 = g.nodes.length ∨
          (flags[j]? = some true ∧ ∃ (i : Nat) (e : Edge M), g.edges[i]? = some e ∧ j ∈ e.tail)) ∧
      ∃ s', forwardBackward ops g = Except.ok s' ∧
        ∀ (j : Nat) (nd : Node M), j + 1 ≠ g.nodes.length → flags[j]? = some false →
          s'.g.nodes[j]? = some nd →
          nd.dEdf = ops.Zero (ops.rows nd.f) (ops.cols nd.f) := by
  obtain ⟨flags, s, hlive, _, hrun, hed, hlen, hnodes, hcalls⟩ :=
    backwardWith_spec ops true g hwf hne
  refine ⟨flags, s, hlive, hrun, ?_, ?_, ?_⟩
  · intro ei ti hmem
    rw [hcalls] at hmem
    obtain ⟨e, t, he, ht, hr, _⟩ := mem_sweepCalls true flags g hwf ei ti hmem
    exact ⟨e, t, he, ht, receives_filter hr⟩
  · intro j nd₀ nd hnd₀ hnd hchanged
    by_contra hnot
    rw [not_or] at hnot
    obtain ⟨hlast, hlt⟩ := hnot
    rw [hnodes j nd₀ hnd₀] at hnd
    apply hchanged
    rw [← Option.some.inj hnd]
    simp only [hlast, if_false]
    by_cases hr : receives true flags j = true
    · have hno : ∀ (i : Nat) (e : Edge M), s.g.edges[i]? = some e → j ∉ e.tail := by
        intro i e he hmem
        rw [hed] at he
        exact hlt ⟨receives_filter hr, i, e, he, hmem⟩
      simp [contributions_no_consumer s.g j hno]
    · simp [hr]
  · obtain ⟨s₁, _, hfw, inv, _⟩ := forward_spec ops g hwf hne
    have hne₁ : 0 < s₁.g.nodes.length := by rw [inv.len]; exact hne
    obtain ⟨flags', s', hlive', _, hrun', _, hlen', hnodes', _⟩ :=
      backwardWith_spec ops true s₁.g (inv.wellFormed hwf) hne₁
    have hfl : flags' = flags := by
      rw [liveness_congr g s₁.g inv.sameShape, hlive] at hlive'
      exact (Except.ok.inj hlive').symm
    subst hfl
    refine ⟨s', ?_, ?_⟩
    · simp only [forwardBackward, hfw]
      exact hrun'
    · intro j nd hj hdead hnd
      have hjlt : j < s₁.g.nodes.length := by
        rw [← hlen']; exact (List.getElem?_eq_some.mp hnd).1
      have hjg : j < g.nodes.length := by rw [← inv.len]; exact hjlt
      have h₁ := hnodes' j _ (List.getElem?_eq_getElem hjlt)
      rw [hnd] at h₁
      have hj' : ¬ (j + 1 = s₁.g.nodes.length) := by rw [inv.len]; exact hj
      obtain ⟨_, e, _, _, he⟩ := hwf.node_edge hjg
      have hzero := (inv.done j _ e hjg (List.getElem?_eq_getElem hjlt) he).2
      rw [Option.some.inj h₁]
      simp only [not_receives_dead hdead, hj', if_false, List.foldl_nil]
      rw [← hzero]
      simp

theorem dead_tails_skipped_witness :
    WellFormed Example.graph ∧ 0 < Example.graph.nodes.length ∧
      ∃ flags s, liveness Example.graph = Except.ok flags ∧
        backward Example.qops Example.graph = Except.ok s ∧
        (∀ ei ti, Call.backward ei ti ∈ s.calls →
          ∃ e t, Example.graph.edges[ei]? = some e ∧ e.tail[ti]? = some t ∧
            flags[t]? = some true) ∧
        (∀ (j : Nat) (nd₀ nd : Node Example.QMat), Example.graph.nodes[j]? = some nd₀ →
          s.g.nodes[j]? = some nd → nd.dEdf ≠ nd₀.dEdf →
          j + 1 = Example.graph.nodes.length ∨
            (flags[j]? = some true ∧
              ∃ (i : Nat) (e : Edge Example.QMat), Example.graph.edges[i]? = some e ∧
                j ∈ e.tail)) ∧
        ∃ s', forwardBackward Example.qops Example.graph = Except.ok s' ∧
          ∀ (j : Nat) (nd : Node Example.QMat), j + 1 ≠ Example.graph.nodes.length →
            flags[j]? = some false → s'.g.nodes[j]? = some nd →
            nd.dEdf = Example.qops.Zero (Example.qops.rows nd.f) (Example.qops.cols nd.f) :=
  ⟨by decide, by decide, dead_tails_skipped Example.qops Example.graph (by decide) (by decide)⟩

/-! ## Gradient finality -/

/-- A property that every pass of a loop preserves holds at its end. -/
theorem loop_preserves {σ : Type} (body : σ → Nat → Outcome σ) (P : σ → Prop)
    (l : List Nat) (s s' : σ)
    (hstep : ∀ j ∈ l, ∀ a b, body a j = Except.ok b → P a → P b)
    (hrun : loop body l s = Except.ok s') (hs : P s) : P s' := by
  induction l generalizing s with
  | nil =>
    simp only [loop] at hrun
    cases hrun
    exact hs
  | cons j rest ih =>
    rw [loop] at hrun
    cases hb : body s j with
    | error e => simp [hb] at hrun
    | ok b =>
      simp only [hb] at hrun
      exact ih b (fun j' hj' => hstep j' (List.mem_cons_of_mem j hj')) hrun
        (hstep j (List.mem_cons_self j rest) s b hb hs)

/-- The inner loop of the reverse sweep at node `i`, when it runs to the end, keeps the
edges and the producer of every node, and keeps whole every node that is not below `i`,
provided the tails are below `i`. -/
theorem backwardTails_frame {R M : Type} (ops : MatrixOps R M) (filter : Bool)
    (flags : List Bool) (i : Nat) (e : Edge M) (xs : List (Option M)) (ts : List Nat)
    (ti : Nat) (s s' : Trav M) (hts : ∀ t ∈ ts, t < i)
    (hrun : backwardTails ops filter flags i e xs ts ti s = Except.ok s') :
    s'.g.edges = s.g.edges ∧ s'.g.nodes.length = s.g.nodes.length ∧
      (∀ j : Nat, (s'.g.nodes[j]?).map Node.in_edge = (s.g.nodes[j]?).map Node.in_edge) ∧
      (∀ j : Nat, i ≤ j → s'.g.nodes[j]? = s.g.nodes[j]?) := by
  induction ts generalizing ti s with
  | nil =>
    simp only [backwardTails] at hrun
    cases hrun
    exact ⟨rfl, rfl, fun _ => rfl, fun _ _ => rfl⟩
  | cons t rest ih =>
    have hti : t < i := hts t (List.mem_cons_self t rest)
    have hrest : ∀ t' ∈ rest, t' < i := fun t' h => hts t' (List.mem_cons_of_mem t h)
    rw [backwardTails] at hrun
    cases hf : flags[t]? with
    | none => simp [hf] at hrun
    | some b =>
      simp only [hf] at hrun
      by_cases hb : (b || !filter) = true
      · simp only [hb, if_true] at hrun
        cases hnt : s.g.nodes[t]? with
        | none => simp [hnt] at hrun
        | some tn =>
          cases hni : s.g.nodes[i]? with
          | none => simp [hnt, hni] at hrun
          | some ni =>
            simp only [hnt, hni] at hrun
            obtain ⟨h₁, h₂, h₃, h₄⟩ := ih _ _ hrest hrun
            have htlt : t < s.g.nodes.length := (List.getElem?_eq_some.mp hnt).1
            refine ⟨h₁, by simpa using h₂, fun j => ?_, fun j hj => ?_⟩
            · rw [h₃ j]
              simp only []
              by_cases hjt : j = t
              · subst hjt
                rw [List.getElem?_set_self htlt, hnt]
                rfl
              · rw [List.getElem?_set_ne (Ne.symm hjt)]
            · rw [h₄ j hj]
              simp only []
              rw [List.getElem?_set_ne (by omega)]
      · simp only [hb, if_false] at hrun
        exact ih _ _ hrest hrun

/-- A step of the reverse sweep on a well-formed graph, when it runs to the end, leaves a
well-formed graph and keeps whole every node that is not below the node processed. -/
theorem backwardStep_frame {R M : Type} (ops : MatrixOps R M) (filter : Bool)
    (flags : List Bool) (s s' : Trav M) (i : Nat) (hwf : WellFormed s.g)
    (hrun : backwardStep ops filter flags s i = Except.ok s') :
    WellFormed s'.g ∧ ∀ j : Nat, i ≤ j → s'.g.nodes[j]? = s.g.nodes[j]? := by
  unfold backwardStep at hrun
  cases hnd : s.g.nodes[i]? with
  | none => simp [hnd] at hrun
  | some nd =>
    simp only [hnd] at hrun
    cases he : s.g.edges[nd.in_edge]? with
    | none => simp [he] at hrun
    | some e =>
      simp only [he] at hrun
      cases hg : gather s.g.nodes e with
      | error f => simp [hg] at hrun
      | ok xs =>
        simp only [hg] at hrun
        rw [hwf.node_in_edge hnd] at he
        obtain ⟨h₁, h₂, h₃, h₄⟩ := backwardTails_frame ops filter flags i e xs e.tail 0 s s'
          (fun t ht => hwf.tail_lt he ht) hrun
        refine ⟨hwf.transfer h₁ h₂ (fun j nd' hj => ?_), h₄⟩
        have hj' : j < s.g.nodes.length := by
          rw [← h₂]; exact (List.getElem?_eq_some.mp hj).1
        have := h₃ j
        rw [hj, List.getElem?_eq_getElem hj'] at this
        exact ⟨_, List.getElem?_eq_getElem hj', Option.some.inj this⟩

/-- C14. Gradient finality in the reverse sweep of `Hypergraph::backward`, on a
well-formed graph: a step that processes node `i` leaves every node of index `i` or more
as it was, so it adds only into `dEdf` of nodes below `i`; every edge that reads node `i`
as a tail produces a node above `i`, which the descending sweep has processed before `i`;
and, when the graph has a node, `backward()` runs to the end and at the moment node `i` is
processed the node, its `dEdf` included, already is as it is at the end of `backward()`. -/
theorem gradient_finality {R M : Type} (ops : MatrixOps R M) (g : Hypergraph M)
    (hwf : WellFormed g) :
    (∀ (flags : List Bool) (s s' : Trav M) (i : Nat), WellFormed s.g →
      backwardStep ops true flags s i = Except.ok s' →
      ∀ j : Nat, i ≤ j → s'.g.nodes[j]? = s.g.nodes[j]?) ∧
    (∀ (i i' : Nat) (e : Edge M), g.edges[i']? = some e → i ∈ e.tail →
      i < i' ∧ i' < g.nodes.length) ∧
    (0 < g.nodes.length →
      ∃ flags s, liveness g = Except.ok flags ∧ backward ops g = Except.ok s ∧
        ∀ i : Nat, i < g.nodes.length →
          ∃ sᵢ, backwardBefore ops true g i = Except.ok sᵢ ∧
            loop (backwardStep ops true flags) (List.range (i + 1)).reverse sᵢ = Except.ok s ∧
            sᵢ.g.nodes[i]? = s.g.nodes[i]?) := by
  refine ⟨fun flags s s' i hw hrun => (backwardStep_frame ops true flags s s' i hw hrun).2,
    fun i i' e he hi => ⟨hwf.tail_lt he hi, hwf.edge_lt he⟩, fun hne => ?_⟩
  obtain ⟨flags, s, hlive, _, hrun, _⟩ := backwardWith_spec ops true g hwf hne
  obtain ⟨g₁, hseed, hed₁, hlen₁, hn₁⟩ := seed_spec ops g hne
  have hwf₁ := seed_wellFormed ops g g₁ hwf hed₁ hlen₁ hn₁
  refine ⟨flags, s, hlive, hrun, fun i hi => ?_⟩
  have hsplit : (List.range g.nodes.length).reverse =
      (List.range' (i + 1) (g.nodes.length - (i + 1))).reverse ++
        (List.range (i + 1)).reverse := by
    rw [← List.reverse_append, List.range_eq_range', List.range_eq_range']
    have := List.range'_append_1 0 (i + 1) (g.nodes.length - (i + 1))
    rw [Nat.zero_add] at this
    rw [this]
    congr 2
    omega
  have hloop : loop (backwardStep ops true flags) (List.range g.nodes.length).reverse
      { g := g₁, calls := [] } = Except.ok s := by
    have := hrun
    simp only [backwardWith, hlive, hseed] at this
    exact this
  rw [hsplit, loop_append] at hloop
  cases hA : loop (backwardStep ops true flags)
      (List.range' (i + 1) (g.nodes.length - (i + 1))).reverse { g := g₁, calls := [] } with
  | error f => simp [hA] at hloop
  | ok sᵢ =>
    simp only [hA] at hloop
    have hwfi : WellFormed sᵢ.g :=
      loop_preserves (backwardStep ops true flags) (fun a => WellFormed a.g) _ _ sᵢ
        (fun j _ a b hb ha => (backwardStep_frame ops true flags a b j ha hb).1) hA hwf₁
    have hfin := loop_preserves (backwardStep ops true flags)
      (fun a => WellFormed a.g ∧ a.g.nodes[i]? = sᵢ.g.nodes[i]?) _ sᵢ s
      (fun j hj a b hb ha => by
        have hji : j ≤ i := by
          have := List.mem_range.mp (List.mem_reverse.mp hj)
          omega
        obtain ⟨hw, hkeep⟩ := backwardStep_frame ops true flags a b j ha.1 hb
        exact ⟨hw, by rw [hkeep i hji]; exact ha.2⟩)
      hloop ⟨hwfi, rfl⟩
    refine ⟨sᵢ, ?_, hloop, hfin.2.symm⟩
    simp only [backwardBefore, hlive, hseed]
    exact hA

theorem gradient_finality_witness :
    WellFormed Example.diamond ∧
      (∀ (i i' : Nat) (e : Edge Example.QMat), Example.diamond.edges[i']? = some e →
        i ∈ e.tail → i < i' ∧ i' < Example.diamond.nodes.length) ∧
      ∃ flags s, liveness Example.diamond = Except.ok flags ∧
        backward Example.qops Example.diamond = Except.ok s ∧
        ∀ i : Nat, i < Example.diamond.nodes.length →
          ∃ sᵢ, backwardBefore Example.qops true Example.diamond i = Except.ok sᵢ ∧
            loop (backwardStep Example.qops true flags) (List.range (i + 1)).reverse sᵢ =
              Except.ok s ∧
            sᵢ.g.nodes[i]? = s.g.nodes[i]? :=
  ⟨by decide, (gradient_finality Example.qops Example.diamond (by decide)).2.1,
    (gradient_finality Example.qops Example.diamond (by decide)).2.2 (by decide)⟩

/-! ## Running `backward` again -/

theorem Example.forwardBackward_pair :
    forwardBackward Example.qops Example.pair =
      Except.ok { g := Example.pairOnce, calls := [Call.backward 1 0] } := by
  simp [forwardBackward, forward, backward, backwardWith, liveness, livenessStep, orTails,
    seed, loop, forwardStep, backwardStep, backwardTails, gather, gatherLoop,
    Example.pair, Example.pairOnce, List.range, List.range.loop, Node.new, Example.paramW,
    Example.square, Example.qops, Example.arg0, Example.QMat.zipWith]
  norm_num

theorem Example.backward_pairOnce :
    backward Example.qops Example.pairOnce =
      Except.ok { g := Example.pairTwice, calls := [Call.backward 1 0] } := by
  simp [backward, backwardWith, liveness, livenessStep, orTails,
    seed, loop, backwardStep, backwardTails, gather, gatherLoop,
    Example.pairOnce, Example.pairTwice, List.range, List.range.loop, Example.paramW,
    Example.square, Example.qops, Example.arg0, Example.QMat.zipWith]
  norm_num

/-- C18. The function `backward()` alone is not idempotent: on the well-formed graph of a
parameter `w = 3` (node 0) read by the one-tail edge `square` (node 1), `forward()` then
`backward()` leaves `dEdf = 6` at node 0, and a second `backward()` leaves `dEdf = 12`
there, having added its contribution on top of the first, while `dEdf` of the last node is
seeded to 1 again. -/
theorem backward_not_idempotent :
    WellFormed Example.pair ∧
      ∃ s s', forwardBackward Example.qops Example.pair = Except.ok s ∧
        backward Example.qops s.g = Except.ok s' ∧
        s.g.nodes.map Node.dEdf = [Example.qops.scalar 6, Example.qops.scalar 1] ∧
        s'.g.nodes.map Node.dEdf = [Example.qops.scalar 12, Example.qops.scalar 1] ∧
        s'.g.nodes.map Node.dEdf ≠ s.g.nodes.map Node.dEdf := by
  refine ⟨by decide, _, _, Example.forwardBackward_pair, Example.backward_pairOnce, rfl, rfl,
    ?_⟩
  simp [Example.pairOnce, Example.pairTwice, Example.qops]

/-! ## `PrintGraphviz` -/

theorem concatLines_nil : concatLines [] = "" := rfl

theorem concatLines_cons (a : String) (l : List String) :
    concatLines (a :: l) = a ++ concatLines l := rfl

theorem concatLines_append (l₁ l₂ : List String) :
    concatLines (l₁ ++ l₂) = concatLines l₁ ++ concatLines l₂ := by
  induction l₁ with
  | nil => simp [concatLines_nil]
  | cons a rest ih => simp only [List.cons_append, concatLines_cons, ih, String.append_assoc]

theorem namesLoop_eq {M : Type} (nodes : List (Node M)) (ts : List Nat) (acc : List String)
    (hts : ∀ t ∈ ts, t < nodes.length) :
    namesLoop nodes ts acc =
      Except.ok (acc ++ ts.map (fun t => ((nodes[t]?).map Node.variable_name).getD "")) := by
  induction ts generalizing acc with
  | nil => simp [namesLoop]
  | cons t rest ih =>
    have hlt : t < nodes.length := hts t (List.mem_cons_self t rest)
    have ht : nodes[t]? = some nodes[t] := List.getElem?_eq_getElem hlt
    rw [namesLoop]
    simp only [ht]
    rw [ih _ (fun t' ht' => hts t' (List.mem_cons_of_mem t ht'))]
    simp [ht]

theorem labelStep_eq {M : Type} (g : Hypergraph M) (hwf : WellFormed g) (cerr : String)
    (k : Nat) (hk : k < g.nodes.length) :
    labelStep g cerr k = Except.ok (cerr ++ labelLine g k) := by
  obtain ⟨nd, e, hnd, hin, he⟩ := hwf.node_edge hk
  have he' : g.edges[nd.in_edge]? = some e := by rw [hin]; exact he
  have hnames := namesLoop_eq g.nodes e.tail []
    (fun t ht => Nat.lt_trans (hwf.tail_lt he ht) hk)
  simp only [labelStep, labelLine, hnd, he', hnames, List.nil_append, String.append_assoc]

theorem arrowTails_eq (h : Nat) (ts : List Nat) (cerr : String) :
    arrowTails h ts cerr = cerr ++ concatLines (ts.map (fun t => arrowLine t h)) := by
  induction ts generalizing cerr with
  | nil => simp [arrowTails, concatLines_nil]
  | cons t rest ih =>
    rw [arrowTails, ih]
    simp only [List.map_cons, concatLines_cons, arrowLine, String.append_assoc]

theorem arrowEdges_eq {M : Type} (es : List (Edge M)) (cerr : String) :
    arrowEdges es cerr = cerr ++
      concatLines ((es.map (fun e => e.tail.map (fun t => arrowLine t e.head_node))).flatten) := by
  induction es generalizing cerr with
  | nil => simp [arrowEdges, concatLines_nil]
  | cons e rest ih =>
    rw [arrowEdges, ih, arrowTails_eq]
    simp only [List.map_cons, List.flatten_cons, concatLines_append, String.append_assoc]

/-- C19. The function `PrintGraphviz` renders the whole structure and is read-only: on a
well-formed graph it runs to the end, leaves the graph as it was, and appends to `cerr`
exactly the fixed header, one label line `N<i> [label=...]` per node in index order, one
arrow line `N<t> -> N<h>` for every pair (edge, tail position) in edge order then tail
order, `t` the tail and `h` the edge's `head_node`, and the closing brace. -/
theorem printGraphviz_renders {M : Type} (g : Hypergraph M) (hwf : WellFormed g)
    (cerr : String) :
    PrintGraphviz g cerr = Except.ok (g, cerr ++ rendering g) ∧
      (labelLines g).length = g.nodes.length ∧
      (arrowLines g).length = (g.edges.map (fun e => e.tail.length)).sum := by
  refine ⟨?_, by simp [labelLines], ?_⟩
  · obtain ⟨c, hloop, hc⟩ := loop_range (labelStep g)
      (fun k c => c = cerr ++ "digraph G \x7b\n  rankdir=LR;\n  nodesep=.05;\n" ++
        concatLines ((List.range k).map (labelLine g)))
      g.nodes.length (cerr ++ "digraph G \x7b\n  rankdir=LR;\n  nodesep=.05;\n")
      (by simp [concatLines_nil])
      (fun k c hk hc => ⟨_, labelStep_eq g hwf c k hk, by
        beta_reduce at hc ⊢
        rw [hc, List.range_succ, List.map_append, concatLines_append]
        simp only [List.map_cons, List.map_nil, concatLines_cons, concatLines_nil,
          String.append_empty, String.append_assoc]⟩)
    simp only [PrintGraphviz, hloop, arrowEdges_eq, hc, rendering, labelLines, arrowLines,
      String.append_assoc]
  · simp only [arrowLines, List.length_flatten, List.map_map]
    congr 1
    apply List.map_congr_left
    intro e _
    simp

theorem printGraphviz_renders_witness :
    WellFormed Example.diamond ∧
      (PrintGraphviz Example.diamond "" = Except.ok (Example.diamond, "" ++ rendering Example.diamond) ∧
        (labelLines Example.diamond).length = Example.diamond.nodes.length ∧
        (arrowLines Example.diamond).length =
          (Example.diamond.edges.map (fun e => e.tail.length)).sum) ∧
      rendering Example.diamond =
        "digraph G \x7b\n  rankdir=LR;\n  nodesep=.05;\n  N0 [label=\"w = w\"];\n  N1 [label=\"sq = square\"];\n  N2 [label=\"y = sum\"];\n  N0 -> N1;\n  N0 -> N2;\n  N1 -> N2;\n  N0 -> N2;\n\x7d\n" :=
  ⟨by decide, printGraphviz_renders Example.diamond (by decide) "", rfl⟩

end cnn
